import Mathlib

/-!
# dns-parser: a shallow embedding of `parser.go`

The Go source decodes the header and the question section of a DNS packet.
This file embeds the decoding functions as Lean functions and proves
properties of them.

Conventions of the embedding:

* a Go `byte` is a `Nat` below `256`, a `uint16` a `Nat` below `65536`;
  arithmetic that can wrap is written with an explicit `% 256` or `% 65536`;
* a Go `int` is a `Nat` where it is an index or a length (the cursor of
  `parseQuestion` stays below the length of the buffer plus `256`, far from
  the 64-bit range), and an `Int` where it is a shift count;
* a Go `[]byte` is a `Slice`: the backing array from the first element of the
  slice up to its capacity, together with the length of the slice;
* a Go `string` is a Lean `String` that holds one character per byte
  (`Char.ofNat` of the byte value);
* a run-time panic (index or slice bounds out of range, negative shift
  count) is `none`.
-/

namespace DnsParser

/-! ## Go slices -/

/-- A Go byte slice. `data` is the backing array seen from the first element
of the slice up to the capacity, `len` is the length of the slice. -/
structure Slice where
  data : List Nat
  len : Nat
deriving DecidableEq, Repr

namespace Slice

/-- Capacity of the slice, Go `cap(b)`. -/
def cap (b : Slice) : Nat := b.data.length

/-- A slice whose capacity equals its length, holding the given bytes. -/
def ofBytes (l : List Nat) : Slice := ⟨l, l.length⟩

/-- The bytes of the slice that are visible through its length. -/
def bytes (b : Slice) : List Nat := b.data.take b.len

/-- Index expression `b[i]`: panics unless `i < len(b)`. -/
def index (b : Slice) (i : Nat) : Option Nat :=
  if i < b.len then b.data[i]? else none

/-- Slice expression `b[lo:hi]`: panics unless `lo ≤ hi ≤ cap(b)`. The result
shares the backing array, has length `hi - lo` and capacity `cap(b) - lo`. -/
def slice (b : Slice) (lo hi : Nat) : Option Slice :=
  if lo ≤ hi ∧ hi ≤ b.cap then some ⟨b.data.drop lo, hi - lo⟩ else none

/-- Slice expression `b[lo:]`, which is `b[lo:len(b)]`. -/
def sliceFrom (b : Slice) (lo : Nat) : Option Slice := b.slice lo b.len

/-- Slice expression `b[:hi]`, which is `b[0:hi]`. -/
def sliceTo (b : Slice) (hi : Nat) : Option Slice := b.slice 0 hi

/-- The value of `b[i]`, and `0` where the index expression panics. -/
def byteAt (b : Slice) (i : Nat) : Nat := (b.index i).getD 0

/-- A slice that shows the bytes `l` and has the spare capacity `extra`
behind them. -/
def withCap (l extra : List Nat) : Slice := ⟨l ++ extra, l.length⟩

/-- A slice as Go can build it: the length is within the capacity and every
element is a byte. -/
def WF (b : Slice) : Prop := b.len ≤ b.cap ∧ ∀ x ∈ b.data, x < 256

instance (b : Slice) : Decidable b.WF := by
  unfold WF; exact inferInstance

end Slice

/-- Conversion `string(b)` of a byte sequence: one character per byte. -/
def bytesToString (l : List Nat) : String := String.mk (l.map Char.ofNat)

/-! ## Data model -/

structure Flag where
  QueryResponseFlag : Nat
  OperationCode : Nat
  AuthoritativeAnswerFlag : Nat
  TruncationFlag : Nat
  RecursionDesired : Nat
  RecursionAvailable : Nat
  ResponseCode : Nat
deriving DecidableEq, Repr, Inhabited

structure Header where
  Identifer : Nat
  Flag : Flag
  QuestionCount : Nat
  AnswerRecordCount : Nat
  AuthorityRecordCount : Nat
  AdditionalRecordCount : Nat
deriving DecidableEq, Repr, Inhabited

/-- A question record. The Go field `Type` is written `Type_` here. -/
structure Question where
  Name : String
  Type_ : Nat
  Class : Nat
deriving DecidableEq, Repr

/-- The zero value of `Question`, as `make([]Question, n)` fills it in. -/
instance : Inhabited Question := ⟨⟨"", 0, 0⟩⟩

structure DNSMessage where
  Header : Header
  Questions : List Question
deriving DecidableEq, Repr

/-! ## Presentation -/

def Flag.OperationCodeString (f : Flag) : String :=
  match f.OperationCode with
  | 0 => "QUERY"
  | 1 => "IQUERY"
  | 2 => "STATUS"
  | 4 => "NOTIFY"
  | 5 => "UPDATE"
  | _ => "UNKOWN"

def Flag.ResponseCodeString (f : Flag) : String :=
  match f.ResponseCode with
  | 0 => "No Error"
  | 1 => "Format Error"
  | 2 => "Server Failure"
  | 3 => "Name Error"
  | 4 => "Not Implemented"
  | 5 => "Refused"
  | 6 => "YX Domain"
  | 7 => "YX RR Set"
  | 8 => "NX RR Set"
  | 9 => "Not Auth"
  | 10 => "Not Zone"
  | _ => "UNKOWN"

def Question.TypeString (q : Question) : String :=
  match q.Type_ with
  | 1 => "A"
  | 2 => "NS"
  | 5 => "CNAME"
  | 6 => "SOA"
  | 12 => "PTR"
  | 15 => "MX"
  | 16 => "TXT"
  | 251 => "IXFR"
  | 252 => "AXFR"
  | 253 => "MAILB"
  | 254 => "MAILA"
  | 255 => "*"
  | _ => "UNKOWN"

def Question.ClassString (q : Question) : String :=
  match q.Class with
  | 1 => "IN"
  | 255 => "ANY"
  | _ => "UNKOWN"

/-- One iteration of the loop of `String`: the line of question `q` is
appended to `r`, after a newline unless `r` is empty. -/
def DNSMessage.appendLine (op : String) (r : String) (q : Question) : String :=
  let line := op ++ ":\t" ++ q.Name ++ "\t" ++ q.TypeString ++ "\t" ++ q.ClassString
  if r = "" then line else r ++ ("\n" ++ line)

def DNSMessage.String (m : DNSMessage) : String :=
  if m.Header.Flag.QueryResponseFlag ≠ 0 then
    "DNS Response message currently not supported"
  else
    m.Questions.foldl (DNSMessage.appendLine m.Header.Flag.OperationCodeString) ""

/-! ## Decoding -/

/-- Big-endian 16-bit word `uint16(b[0])<<8 | uint16(b[1])`. -/
def bytesToU16 (b : Slice) : Option Nat := do
  let b0 ← b.index 0
  let b1 ← b.index 1
  some (((b0 * 2 ^ 8) % 65536) ||| b1)

/-- Right shift `b >> k` of a byte by an `int` count; a negative count
panics. -/
def shr8 (b : Nat) (k : Int) : Option Nat :=
  if k < 0 then none else some (b / 2 ^ k.toNat)

/-- Left shift `b << k` of a byte by an `int` count, wrapping modulo `256`;
a negative count panics. -/
def shl8 (b : Nat) (k : Int) : Option Nat :=
  if k < 0 then none else some ((b * 2 ^ k.toNat) % 256)

/-- Bit span `(b >> (8 - e)) & (1<<(e-s) - 1)`. The constant `1` takes the
type `byte` of the other operand of `&`, so the mask is computed modulo
`256`. -/
def bitTobyte (b : Nat) (s e : Int) : Option Nat := do
  let hi ← shr8 b (8 - e)
  let one ← shl8 1 (e - s)
  some (hi &&& ((one + 256 - 1) % 256))

def parseFlag (b : Slice) : Option Flag := do
  let b0 ← b.index 0
  let qr ← bitTobyte b0 0 1
  let b0 ← b.index 0
  let opcode ← bitTobyte b0 1 5
  let b0 ← b.index 0
  let aa ← bitTobyte b0 5 6
  let b0 ← b.index 0
  let tc ← bitTobyte b0 6 7
  let b0 ← b.index 0
  let rd ← bitTobyte b0 7 8
  let b1 ← b.index 1
  let ra ← bitTobyte b1 0 1
  let b1 ← b.index 1
  let rcode ← bitTobyte b1 4 8
  some ⟨qr, opcode, aa, tc, rd, ra, rcode⟩

def parseHeader (b : Slice) : Option (Header × Nat) := do
  let identifer ← bytesToU16 (← b.sliceTo 2)
  let flag ← parseFlag (← b.slice 2 4)
  let questionCount ← bytesToU16 (← b.slice 4 6)
  let answerRecordCount ← bytesToU16 (← b.slice 6 8)
  let authorityRecordCount ← bytesToU16 (← b.slice 8 10)
  let additionalRecordCount ← bytesToU16 (← b.slice 10 12)
  some (⟨identifer, flag, questionCount, answerRecordCount, authorityRecordCount,
    additionalRecordCount⟩, 12)

/-- The label loop of `parseQuestion`, entered with cursor `i` and the name
built so far. It returns the name and the cursor after the zero length
byte. The cursor grows in every iteration and a length byte is read below
`len(b)`, so the loop is defined by recursion on `len(b) - i`. -/
def parseQuestion.loop (b : Slice) (i : Nat) (name : String) : Option (String × Nat) :=
  match h : b.index i with
  | none => none
  | some length =>
    if length = 0 then some (name, i + 1)
    else
      let endIdx := i + 1 + length
      let name1 := if name ≠ "" then name ++ "." else name
      match b.slice (i + 1) endIdx with
      | none => none
      | some label => parseQuestion.loop b endIdx (name1 ++ bytesToString label.bytes)
termination_by b.len - i
decreasing_by
  have hlt : i < b.len := by
    unfold Slice.index at h
    by_cases hi : i < b.len
    · exact hi
    · simp [hi] at h
  omega

def parseQuestion (b : Slice) : Option (Question × Nat) := do
  let (name, i) ← parseQuestion.loop b 0 ""
  let type ← bytesToU16 (← b.slice i (i + 2))
  let cls ← bytesToU16 (← b.slice (i + 2) (i + 4))
  some (⟨name, type, cls⟩, i + 4)

/-- The loop of `Parse` with `k` iterations left: `i` is the loop index,
`n` the consumed length of the previous decoder, `qs` the question array. -/
def Parse.loop : Nat → Nat → Slice → Nat → List Question → Option (List Question)
  | 0, _, _, _, qs => some qs
  | k + 1, i, packet, n, qs => do
    let packet ← packet.sliceFrom n
    let (question, n) ← parseQuestion packet
    Parse.loop k (i + 1) packet n (qs.set i question)

def Parse (packet : Slice) : Option DNSMessage := do
  let (header, n) ← parseHeader packet
  let questions ← Parse.loop header.QuestionCount 0 packet n
    (List.replicate header.QuestionCount default)
  some ⟨header, questions⟩

/-- The packet of the end-to-end example: a header with identifier 1, the
recursion-desired bit and one question, then the question `example.com`,
type 1, class 1. -/
def examplePacket : List Nat :=
  [0, 1, 1, 0, 0, 1, 0, 0, 0, 0, 0, 0,
   7, 101, 120, 97, 109, 112, 108, 101, 3, 99, 111, 109, 0,
   0, 1, 0, 1]

/-! ## Wire form of a question, in the words of the claims -/

/-- The wire form of a list of labels: every label is preceded by its length
byte. -/
def encodeLabels : List (List Nat) → List Nat
  | [] => []
  | l :: ls => (l.length :: l) ++ encodeLabels ls

/-- The name of a list of labels: the labels as strings, with exactly one dot
between consecutive labels, and the empty string for no label. -/
def joinLabels (ls : List (List Nat)) : String := ".".intercalate (ls.map bytesToString)

/-- A label as the claims take it: between 1 and 255 bytes. -/
def ValidLabel (l : List Nat) : Prop := 1 ≤ l.length ∧ l.length ≤ 255 ∧ ∀ x ∈ l, x < 256

instance (l : List Nat) : Decidable (ValidLabel l) := by
  unfold ValidLabel; exact inferInstance

/-- The name after one iteration of the label loop of `parseQuestion` that
reads the label `l`. -/
def appendLabel (name : String) (l : List Nat) : String :=
  (if name ≠ "" then name ++ "." else name) ++ bytesToString l

/-! ## The cursor of the message assembler, in the words of the claims -/

/-- The cursor `c_i` of the claims on the packet `p`: `c_0 = c0` and
`c_(i+1) = c_i + n_i`, where `n_i` is the consumed length that
`parseQuestion` returns on `p[c_i:]`. -/
def cursorAt (p : Slice) (c0 : Nat) : Nat → Option Nat
  | 0 => some c0
  | i + 1 => do
    let c ← cursorAt p c0 i
    let (_, n) ← parseQuestion (← p.sliceFrom c)
    some (c + n)

/-- The result `(q_i, n_i)` of `parseQuestion` on `p[c_i:]`. -/
def questionAt (p : Slice) (c0 : Nat) (i : Nat) : Option (Question × Nat) := do
  let c ← cursorAt p c0 i
  parseQuestion (← p.sliceFrom c)

/-- The bounds of the seven flag fields: one bit for the five flags, four
bits for the operation code and the response code. -/
def Flag.InRange (f : Flag) : Prop :=
  f.QueryResponseFlag ≤ 1 ∧ f.AuthoritativeAnswerFlag ≤ 1 ∧ f.TruncationFlag ≤ 1 ∧
  f.RecursionDesired ≤ 1 ∧ f.RecursionAvailable ≤ 1 ∧ f.OperationCode ≤ 15 ∧
  f.ResponseCode ≤ 15

/-- The line of one question in the rendering of a message, in the words of
the claims. -/
def questionLine (op : String) (q : Question) : String :=
  op ++ ":\t" ++ q.Name ++ "\t" ++ q.TypeString ++ "\t" ++ q.ClassString

/-- A string that is not empty and neither begins nor ends with a newline. -/
def NoOuterNewline (s : String) : Prop :=
  s ≠ "" ∧ s.data.head? ≠ some (Char.ofNat 10) ∧ s.data.getLast? ≠ some (Char.ofNat 10)

/-- The label loop of `parseQuestion` with a bound on the number of
iterations. An iteration is counted when it reads its length byte; a read
outside the buffer ends the loop with a panic. The outer `none` says that the
loop has not ended within `fuel` iterations. -/
def parseQuestion.run (b : Slice) : Nat → Nat → String → Option (Option (String × Nat))
  | 0, i, _ =>
    match b.index i with
    | none => some none
    | some _ => none
  | fuel + 1, i, name =>
    match b.index i with
    | none => some none
    | some length =>
      if length = 0 then some (some (name, i + 1))
      else
        let endIdx := i + 1 + length
        let name1 := if name ≠ "" then name ++ "." else name
        match b.slice (i + 1) endIdx with
        | none => some none
        | some label => parseQuestion.run b fuel endIdx (name1 ++ bytesToString label.bytes)

/-- The packet of the end-to-end example with the response bit set in the
byte at index 2. -/
def responsePacket : List Nat :=
  [0, 1, 129, 0, 0, 1, 0, 0, 0, 0, 0, 0,
   7, 101, 120, 97, 109, 112, 108, 101, 3, 99, 111, 109, 0,
   0, 1, 0, 1]

/-- A header with one question followed by the root name, with the three
record counts 0, shown through a slice of length 13. -/
def rootQuestionPacket : List Nat := [0, 1, 1, 0, 0, 1, 0, 0, 0, 0, 0, 0, 0]

/-- The packet `rootQuestionPacket` with the three record counts 2, 3, 4. -/
def rootQuestionPacket2 : List Nat := [0, 1, 1, 0, 0, 1, 0, 2, 0, 3, 0, 4, 0]

/-! ## Lemmas on the bit-field extractor and the header decoder -/

theorem mask_eq (m : Nat) (hm : m ≤ 8) : ((1 * 2 ^ m) % 256 + 256 - 1) % 256 = 2 ^ m - 1 := by
  interval_cases m <;> rfl

theorem bitTobyte_eq (b : Nat) (s e : Int) (h0 : 0 ≤ s) (hse : s ≤ e) (he : e ≤ 8) :
    bitTobyte b s e = some (b / 2 ^ (8 - e).toNat % 2 ^ (e - s).toNat) := by
  have h1 : ¬ (8 - e < 0) := by omega
  have h2 : ¬ (e - s < 0) := by omega
  have hm : (e - s).toNat ≤ 8 := by omega
  simp only [bitTobyte, shr8, shl8, h1, h2, if_false, Option.bind_eq_bind, Option.some_bind,
    mask_eq _ hm, Nat.and_pow_two_sub_one_eq_mod]

theorem index_mk_lt (d : List Nat) (n i : Nat) (h : i < n) : Slice.index ⟨d, n⟩ i = d[i]? := by
  simp [Slice.index, h]

theorem parseFlag_pair (b0 b1 : Nat) (rest : List Nat) (n : Nat) (hn : 2 ≤ n) :
    parseFlag ⟨b0 :: b1 :: rest, n⟩ =
      some ⟨b0 / 128 % 2, b0 / 8 % 16, b0 / 4 % 2, b0 / 2 % 2, b0 % 2, b1 / 128 % 2, b1 % 16⟩ := by
  have i0 : Slice.index ⟨b0 :: b1 :: rest, n⟩ 0 = some b0 := by
    rw [index_mk_lt _ _ _ (by omega)]; simp
  have i1 : Slice.index ⟨b0 :: b1 :: rest, n⟩ 1 = some b1 := by
    rw [index_mk_lt _ _ _ (by omega)]; simp
  simp only [parseFlag, i0, i1, Option.bind_eq_bind, Option.some_bind,
    bitTobyte_eq _ 0 1 (by decide) (by decide) (by decide),
    bitTobyte_eq _ 1 5 (by decide) (by decide) (by decide),
    bitTobyte_eq _ 5 6 (by decide) (by decide) (by decide),
    bitTobyte_eq _ 6 7 (by decide) (by decide) (by decide),
    bitTobyte_eq _ 7 8 (by decide) (by decide) (by decide),
    bitTobyte_eq _ 4 8 (by decide) (by decide) (by decide)]
  have e7 : Int.toNat 7 = 7 := rfl
  have e3 : Int.toNat 3 = 3 := rfl
  have e2 : Int.toNat 2 = 2 := rfl
  have e4 : Int.toNat 4 = 4 := rfl
  simp [e7, e3, e2, e4]

theorem bytesToU16_pair (b0 b1 : Nat) (rest : List Nat) (n : Nat) (hn : 2 ≤ n) :
    bytesToU16 ⟨b0 :: b1 :: rest, n⟩ = some (((b0 * 2 ^ 8) % 65536) ||| b1) := by
  have i0 : Slice.index ⟨b0 :: b1 :: rest, n⟩ 0 = some b0 := by
    rw [index_mk_lt _ _ _ (by omega)]; simp
  have i1 : Slice.index ⟨b0 :: b1 :: rest, n⟩ 1 = some b1 := by
    rw [index_mk_lt _ _ _ (by omega)]; simp
  simp only [bytesToU16, i0, i1, Option.bind_eq_bind, Option.some_bind]

theorem word_of_bytes (b0 b1 : Nat) (h0 : b0 < 256) (h1 : b1 < 256) :
    ((b0 * 2 ^ 8) % 65536) ||| b1 = 256 * b0 + b1 := by
  have : b0 * 2 ^ 8 < 65536 := by omega
  rw [Nat.mod_eq_of_lt this, Nat.mul_comm]
  exact (Nat.mul_add_lt_is_or (i := 8) h1 b0).symm

/-- The header decoder reads the first twelve elements of the backing array;
the length of the slice plays no part. -/
theorem parseHeader_cons (b0 b1 b2 b3 b4 b5 b6 b7 b8 b9 b10 b11 : Nat) (rest : List Nat)
    (n : Nat) :
    parseHeader ⟨b0 :: b1 :: b2 :: b3 :: b4 :: b5 :: b6 :: b7 :: b8 :: b9 :: b10 :: b11 :: rest, n⟩
      = some (⟨((b0 * 2 ^ 8) % 65536) ||| b1,
          ⟨b2 / 128 % 2, b2 / 8 % 16, b2 / 4 % 2, b2 / 2 % 2, b2 % 2, b3 / 128 % 2, b3 % 16⟩,
          ((b4 * 2 ^ 8) % 65536) ||| b5, ((b6 * 2 ^ 8) % 65536) ||| b7,
          ((b8 * 2 ^ 8) % 65536) ||| b9, ((b10 * 2 ^ 8) % 65536) ||| b11⟩, 12) := by
  simp only [parseHeader, Slice.sliceTo, Slice.slice, Slice.cap, List.length_cons]
  simp [List.drop, bytesToU16_pair, parseFlag_pair]

theorem parseHeader_short (b : Slice) (h : b.cap < 12) : parseHeader b = none := by
  obtain ⟨d, n⟩ := b
  simp only [Slice.cap] at h
  have key : Slice.slice ⟨d, n⟩ 10 12 = none := by
    simp [Slice.slice, Slice.cap]; omega
  simp [parseHeader, key]

/-- A list of at least twelve elements, taken apart. -/
theorem exists_cons12 (d : List Nat) (h : 12 ≤ d.length) :
    ∃ b0 b1 b2 b3 b4 b5 b6 b7 b8 b9 b10 b11 rest,
      d = b0 :: b1 :: b2 :: b3 :: b4 :: b5 :: b6 :: b7 :: b8 :: b9 :: b10 :: b11 :: rest := by
  match d, h with
  | b0 :: b1 :: b2 :: b3 :: b4 :: b5 :: b6 :: b7 :: b8 :: b9 :: b10 :: b11 :: rest, _ =>
    exact ⟨b0, b1, b2, b3, b4, b5, b6, b7, b8, b9, b10, b11, rest, rfl⟩

theorem parseHeader_isSome (b : Slice) (h : 12 ≤ b.cap) : ∃ hd, parseHeader b = some (hd, 12) := by
  obtain ⟨d, n⟩ := b
  obtain ⟨b0, b1, b2, b3, b4, b5, b6, b7, b8, b9, b10, b11, rest, rfl⟩ := exists_cons12 d h
  exact ⟨_, parseHeader_cons _ _ _ _ _ _ _ _ _ _ _ _ _ _⟩

theorem parseHeader_consumed (b : Slice) (hd : Header) (n : Nat)
    (h : parseHeader b = some (hd, n)) : n = 12 ∧ 12 ≤ b.cap := by
  by_cases hc : 12 ≤ b.cap
  · obtain ⟨hd1, h1⟩ := parseHeader_isSome b hc
    rw [h1] at h
    simp only [Option.some.injEq, Prod.mk.injEq] at h
    exact ⟨h.2.symm, hc⟩
  · rw [parseHeader_short b (by omega)] at h
    exact absurd h (by simp)

/-! ## Lemmas on the question decoder -/

theorem loop_none (b : Slice) (i : Nat) (name : String) (h : b.index i = none) :
    parseQuestion.loop b i name = none := by
  rw [parseQuestion.loop]
  split
  · rfl
  · rename_i k hk
    rw [h] at hk
    exact absurd hk (by simp)

theorem loop_zero (b : Slice) (i : Nat) (name : String) (h : b.index i = some 0) :
    parseQuestion.loop b i name = some (name, i + 1) := by
  rw [parseQuestion.loop]
  split
  · rename_i hk
    rw [h] at hk
    exact absurd hk (by simp)
  · rename_i k hk
    rw [h] at hk
    simp only [Option.some.injEq] at hk
    subst hk
    simp

theorem loop_label (b : Slice) (i : Nat) (name : String) (k : Nat) (h : b.index i = some k)
    (hk : k ≠ 0) :
    parseQuestion.loop b i name =
      (b.slice (i + 1) (i + 1 + k)).bind fun label =>
        parseQuestion.loop b (i + 1 + k)
          ((if name ≠ "" then name ++ "." else name) ++ bytesToString label.bytes) := by
  rw [parseQuestion.loop]
  split
  · rename_i hk
    rw [h] at hk
    exact absurd hk (by simp)
  · rename_i k1 hk1
    rw [h] at hk1
    simp only [Option.some.injEq] at hk1
    subst hk1
    simp only [hk, if_false]
    cases b.slice (i + 1) (i + 1 + k) <;> rfl

theorem bytesToString_ne_empty (l : List Nat) (h : l ≠ []) : bytesToString l ≠ "" := by
  intro hc
  have := congrArg String.data hc
  simp [bytesToString] at this
  exact h this

theorem append_ne_empty (s t : String) (h : t ≠ "") : s ++ t ≠ "" := by
  intro hc
  have := congrArg String.data hc
  simp only [String.data_append] at this
  have h2 : t.data = [] := by
    simpa using (List.append_eq_nil.1 this).2
  apply h
  exact String.ext h2

theorem appendLabel_ne_empty (name : String) (l : List Nat) (h : l ≠ []) :
    appendLabel name l ≠ "" := append_ne_empty _ _ (bytesToString_ne_empty l h)

theorem foldl_appendLabel (ls : List (List Nat)) (hls : ∀ l ∈ ls, l ≠ []) (acc : String)
    (hacc : acc ≠ "") :
    ls.foldl appendLabel acc = String.intercalate.go acc "." (ls.map bytesToString) := by
  induction ls generalizing acc with
  | nil => rfl
  | cons l ls ih =>
    have hl : l ≠ [] := hls l (List.mem_cons_self _ _)
    simp only [List.foldl_cons, List.map_cons, String.intercalate.go]
    rw [ih (fun x hx => hls x (List.mem_cons_of_mem _ hx)) _ (appendLabel_ne_empty _ _ hl)]
    simp [appendLabel, hacc]

theorem foldl_appendLabel_empty (ls : List (List Nat)) (hls : ∀ l ∈ ls, l ≠ []) :
    ls.foldl appendLabel "" = joinLabels ls := by
  cases ls with
  | nil => rfl
  | cons l ls =>
    have hl : l ≠ [] := hls l (List.mem_cons_self _ _)
    simp only [List.foldl_cons, joinLabels, List.map_cons, String.intercalate]
    have e : appendLabel "" l = bytesToString l := by
      simp [appendLabel]
    rw [e]
    exact foldl_appendLabel ls (fun x hx => hls x (List.mem_cons_of_mem _ hx)) _
      (bytesToString_ne_empty l hl)

theorem index_append (pre tail : List Nat) (x : Nat) (n : Nat) (h : pre.length < n) :
    Slice.index ⟨pre ++ x :: tail, n⟩ pre.length = some x := by
  simp only [Slice.index, h, if_true]
  rw [List.getElem?_append_right (le_refl _)]
  simp

theorem index_append_nil (pre : List Nat) (n : Nat) :
    Slice.index ⟨pre, n⟩ pre.length = none := by
  simp [Slice.index]

theorem slice_label (pre l tail : List Nat) (x n : Nat) :
    Slice.slice ⟨pre ++ x :: (l ++ tail), n⟩ (pre.length + 1) (pre.length + 1 + l.length)
      = some ⟨l ++ tail, l.length⟩ := by
  have e : List.drop (pre.length + 1) (pre ++ x :: (l ++ tail)) = l ++ tail := by
    have : pre ++ x :: (l ++ tail) = (pre ++ [x]) ++ (l ++ tail) := by simp
    rw [this]
    exact List.drop_left' (by simp)
  simp only [Slice.slice, Slice.cap, e]
  rw [if_pos]
  · simp
  · simp; omega

theorem bytes_label (l tail : List Nat) : Slice.bytes ⟨l ++ tail, l.length⟩ = l := by
  simp [Slice.bytes]

theorem loop_labels (ls : List (List Nat)) (hls : ∀ l ∈ ls, l ≠ []) (pre tail : List Nat)
    (n : Nat) (name : String) (hn : pre.length + (encodeLabels ls).length ≤ n) :
    parseQuestion.loop ⟨pre ++ (encodeLabels ls ++ tail), n⟩ pre.length name =
      parseQuestion.loop ⟨pre ++ (encodeLabels ls ++ tail), n⟩
        (pre.length + (encodeLabels ls).length) (ls.foldl appendLabel name) := by
  induction ls generalizing pre name with
  | nil => simp [encodeLabels]
  | cons l ls ih =>
    have hl : l ≠ [] := hls l (List.mem_cons_self _ _)
    have hl0 : l.length ≠ 0 := by
      intro h; exact hl (List.length_eq_zero.1 h)
    simp only [encodeLabels, List.length_append, List.length_cons] at hn
    have hdata : pre ++ (encodeLabels (l :: ls) ++ tail)
        = pre ++ l.length :: (l ++ (encodeLabels ls ++ tail)) := by
      simp [encodeLabels]
    have hdata2 : pre ++ (encodeLabels (l :: ls) ++ tail)
        = (pre ++ l.length :: l) ++ (encodeLabels ls ++ tail) := by
      simp [encodeLabels]
    have hlen2 : (pre ++ l.length :: l).length = pre.length + 1 + l.length := by
      simp; omega
    rw [loop_label _ _ _ l.length (by rw [hdata]; exact index_append _ _ _ _ (by omega)) hl0]
    have hs : Slice.slice ⟨pre ++ (encodeLabels (l :: ls) ++ tail), n⟩ (pre.length + 1)
        (pre.length + 1 + l.length) = some ⟨l ++ (encodeLabels ls ++ tail), l.length⟩ := by
      rw [hdata]; exact slice_label _ _ _ _ _
    rw [hs]
    simp only [Option.some_bind, bytes_label]
    have := ih (fun x hx => hls x (List.mem_cons_of_mem _ hx)) (pre ++ l.length :: l)
      (appendLabel name l) (by rw [hlen2]; omega)
    rw [hlen2] at this
    rw [hdata2]
    rw [show (if name ≠ "" then name ++ "." else name) ++ bytesToString l = appendLabel name l
      from rfl]
    rw [this]
    simp only [List.foldl_cons, encodeLabels, List.length_append, List.length_cons]
    congr 1
    omega

theorem loop_labels_nil (ls : List (List Nat)) (hls : ∀ l ∈ ls, l ≠ []) (tail : List Nat)
    (n : Nat) (hn : (encodeLabels ls).length ≤ n) :
    parseQuestion.loop ⟨encodeLabels ls ++ tail, n⟩ 0 "" =
      parseQuestion.loop ⟨encodeLabels ls ++ tail, n⟩ (encodeLabels ls).length
        (joinLabels ls) := by
  have h := loop_labels ls hls [] tail n "" (by simpa using hn)
  simp only [List.nil_append, List.length_nil, Nat.zero_add] at h
  rw [h, foldl_appendLabel_empty ls hls]

theorem slice_append (pre tail : List Nat) (n k : Nat) (a : Nat) (hk : a + k ≤ tail.length) :
    Slice.slice ⟨pre ++ tail, n⟩ (pre.length + a) (pre.length + a + k)
      = some ⟨tail.drop a, k⟩ := by
  have e : List.drop (pre.length + a) (pre ++ tail) = tail.drop a := by
    rw [← List.drop_drop]
    simp
  simp only [Slice.slice, Slice.cap, e]
  rw [if_pos]
  · simp
  · simp; omega

/-- The question decoder on the wire form of a list of non-empty labels. -/
theorem parseQuestion_encode (ls : List (List Nat)) (hls : ∀ l ∈ ls, l ≠ [])
    (t0 t1 c0 c1 : Nat) (r : List Nat) (n : Nat) (hn : (encodeLabels ls).length < n) :
    parseQuestion ⟨encodeLabels ls ++ 0 :: t0 :: t1 :: c0 :: c1 :: r, n⟩
      = some (⟨joinLabels ls, ((t0 * 2 ^ 8) % 65536) ||| t1, ((c0 * 2 ^ 8) % 65536) ||| c1⟩,
          (encodeLabels ls).length + 1 + 4) := by
  have hloop : parseQuestion.loop ⟨encodeLabels ls ++ 0 :: t0 :: t1 :: c0 :: c1 :: r, n⟩ 0 ""
      = some (joinLabels ls, (encodeLabels ls).length + 1) := by
    rw [loop_labels_nil ls hls _ n (by omega)]
    exact loop_zero _ _ _ (index_append _ _ _ _ hn)
  have hpre : encodeLabels ls ++ 0 :: t0 :: t1 :: c0 :: c1 :: r
      = (encodeLabels ls ++ [0]) ++ (t0 :: t1 :: c0 :: c1 :: r) := by simp
  have hplen : (encodeLabels ls ++ [0]).length = (encodeLabels ls).length + 1 := by simp
  have s1 := slice_append (encodeLabels ls ++ [0]) (t0 :: t1 :: c0 :: c1 :: r) n 2 0
    (by simp)
  have s2 := slice_append (encodeLabels ls ++ [0]) (t0 :: t1 :: c0 :: c1 :: r) n 2 2
    (by simp)
  rw [hplen] at s1 s2
  simp only [Nat.add_zero, List.drop_zero] at s1
  rw [← hpre] at s1 s2
  simp only [parseQuestion, hloop, Option.bind_eq_bind, Option.some_bind, s1, s2]
  simp only [List.drop, bytesToU16_pair _ _ _ _ (le_refl 2), Option.some_bind]

theorem encodeLabels_length (ls : List (List Nat)) :
    (encodeLabels ls).length = (ls.map List.length).sum + ls.length := by
  induction ls with
  | nil => rfl
  | cons l ls ih =>
    simp only [encodeLabels, List.length_append, List.length_cons, List.map_cons, List.sum_cons, ih]
    omega

theorem index_eq_some (b : Slice) (i k : Nat) (h : b.index i = some k) :
    i < b.len ∧ b.data[i]? = some k := by
  unfold Slice.index at h
  by_cases hi : i < b.len
  · rw [if_pos hi] at h; exact ⟨hi, h⟩
  · rw [if_neg hi] at h; exact absurd h (by simp)

theorem drop_of_getElem? (d : List Nat) (i k : Nat) (h : d[i]? = some k) :
    d.drop i = k :: d.drop (i + 1) := by
  obtain ⟨hi, hk⟩ := List.getElem?_eq_some.1 h
  rw [List.drop_eq_getElem_cons hi, hk]

/-- A run of the label loop that returns has walked over the wire form of a
list of non-empty labels and a zero byte. -/
theorem loop_some (b : Slice) (m : Nat) : ∀ (i : Nat) (name : String) (nm : String) (j : Nat),
    b.len - i ≤ m → parseQuestion.loop b i name = some (nm, j) →
    ∃ ls tail, (∀ l ∈ ls, l ≠ [] ∧ l.length ∈ b.data) ∧
      b.data.drop i = encodeLabels ls ++ 0 :: tail ∧
      j = i + (encodeLabels ls).length + 1 ∧ j ≤ b.len ∧ nm = ls.foldl appendLabel name := by
  induction m with
  | zero =>
    intro i name nm j hm h
    rw [loop_none b i name (by simp [Slice.index]; omega)] at h
    exact absurd h (by simp)
  | succ m ih =>
    intro i name nm j hm h
    cases hidx : b.index i with
    | none =>
      rw [loop_none b i name hidx] at h
      exact absurd h (by simp)
    | some k =>
      obtain ⟨hi, hk⟩ := index_eq_some b i k hidx
      by_cases hk0 : k = 0
      · subst hk0
        rw [loop_zero b i name hidx] at h
        simp only [Option.some.injEq, Prod.mk.injEq] at h
        refine ⟨[], b.data.drop (i + 1), by simp, ?_, ?_, ?_, ?_⟩
        · simpa [encodeLabels] using drop_of_getElem? _ _ _ hk
        · simp [encodeLabels, h.2.symm]
        · omega
        · simp [h.1.symm]
      · rw [loop_label b i name k hidx hk0] at h
        cases hs : b.slice (i + 1) (i + 1 + k) with
        | none =>
          rw [hs] at h
          exact absurd h (by simp)
        | some label =>
          rw [hs] at h
          simp only [Option.some_bind] at h
          have hcap : i + 1 + k ≤ b.data.length := by
            unfold Slice.slice at hs
            by_cases hc : i + 1 ≤ i + 1 + k ∧ i + 1 + k ≤ b.cap
            · exact hc.2
            · rw [if_neg hc] at hs; exact absurd hs (by simp)
          have hlab : label = ⟨b.data.drop (i + 1), k⟩ := by
            unfold Slice.slice at hs
            rw [if_pos ⟨by omega, hcap⟩] at hs
            simp only [Option.some.injEq] at hs
            rw [← hs]
            congr 1
            omega
          have hbytes : label.bytes = (b.data.drop (i + 1)).take k := by
            rw [hlab]; rfl
          have hblen : label.bytes.length = k := by
            rw [hbytes, List.length_take, List.length_drop]
            omega
          obtain ⟨ls, tail, hls, hdrop, hj, hjl, hnm⟩ :=
            ih (i + 1 + k) _ nm j (by omega) h
          refine ⟨label.bytes :: ls, tail, ?_, ?_, ?_, hjl, ?_⟩
          · intro l hl
            simp only [List.mem_cons] at hl
            rcases hl with rfl | hl
            · refine ⟨?_, ?_⟩
              · intro hnil
                rw [hnil] at hblen
                exact hk0 hblen.symm
              · rw [hblen]
                exact List.getElem?_mem hk
            · exact hls l hl
          · rw [drop_of_getElem? _ _ _ hk]
            simp only [encodeLabels, hblen, List.cons_append, List.append_assoc]
            congr 1
            rw [← hdrop, hbytes]
            have : List.drop (i + 1 + k) b.data = List.drop k (List.drop (i + 1) b.data) := by
              rw [List.drop_drop]
            rw [this]
            exact (List.take_append_drop _ _).symm
          · simp only [encodeLabels, List.length_append, List.length_cons, hblen]
            omega
          · rw [hnm]; rfl

/-- The question decoder fails when fewer than four elements follow the zero
byte in the backing array. -/
theorem parseQuestion_short (b : Slice) (name : String) (j : Nat)
    (hloop : parseQuestion.loop b 0 "" = some (name, j)) (hcap : b.cap < j + 4) :
    parseQuestion b = none := by
  have key : b.slice (j + 2) (j + 4) = none := by
    simp only [Slice.slice]
    rw [if_neg (by omega)]
  simp [parseQuestion, hloop, key]

theorem parseQuestion_none_of_loop (b : Slice) (hloop : parseQuestion.loop b 0 "" = none) :
    parseQuestion b = none := by
  simp [parseQuestion, hloop]

/-- A successful run of the question decoder has read the wire form of a list
of non-empty labels, a zero byte and four more elements. -/
theorem parseQuestion_some (b : Slice) (q : Question) (n : Nat)
    (h : parseQuestion b = some (q, n)) :
    ∃ ls t0 t1 c0 c1 r, (∀ l ∈ ls, l ≠ [] ∧ l.length ∈ b.data) ∧
      b.data = encodeLabels ls ++ 0 :: t0 :: t1 :: c0 :: c1 :: r ∧
      (encodeLabels ls).length < b.len ∧
      n = (encodeLabels ls).length + 1 + 4 ∧
      q = ⟨joinLabels ls, ((t0 * 2 ^ 8) % 65536) ||| t1, ((c0 * 2 ^ 8) % 65536) ||| c1⟩ := by
  cases hloop : parseQuestion.loop b 0 "" with
  | none =>
    rw [parseQuestion_none_of_loop b hloop] at h
    exact absurd h (by simp)
  | some res =>
    obtain ⟨name, j⟩ := res
    obtain ⟨ls, tail, hls, hdrop, hj, hjl, -⟩ := loop_some b b.len 0 "" name j (by omega) hloop
    simp only [List.drop_zero, Nat.zero_add] at hdrop hj
    have hcap : j + 4 ≤ b.cap := by
      by_contra hc
      rw [parseQuestion_short b name j hloop (by omega)] at h
      exact absurd h (by simp)
    have htail : 4 ≤ tail.length := by
      have : b.cap = (encodeLabels ls).length + 1 + tail.length := by
        simp [Slice.cap, hdrop]; omega
      omega
    match tail, htail with
    | t0 :: t1 :: c0 :: c1 :: r, _ =>
      obtain ⟨d, len⟩ := b
      simp only at hdrop hjl hls
      subst hdrop
      have henc := parseQuestion_encode ls (fun l hl => (hls l hl).1) t0 t1 c0 c1 r len (by omega)
      rw [henc] at h
      simp only [Option.some.injEq, Prod.mk.injEq] at h
      exact ⟨ls, t0, t1, c0, c1, r, hls, rfl, by simp only; omega, h.2.symm, h.1.symm⟩

theorem mem_encodeLabels (ls : List (List Nat)) (l : List Nat) (x : Nat) (hl : l ∈ ls)
    (hx : x ∈ l) : x ∈ encodeLabels ls := by
  induction ls with
  | nil => exact absurd hl (by simp)
  | cons a ls ih =>
    simp only [encodeLabels, List.cons_append, List.mem_cons, List.mem_append]
    simp only [List.mem_cons] at hl
    rcases hl with rfl | hl
    · exact Or.inr (Or.inl hx)
    · exact Or.inr (Or.inr (ih hl))

theorem ValidLabel.ne_nil {l : List Nat} (h : ValidLabel l) : l ≠ [] := by
  intro hn
  have := h.1
  rw [hn] at this
  exact absurd this (by decide)

theorem word_split (t : Nat) (ht : t < 65536) :
    (((t / 256) * 2 ^ 8) % 65536) ||| (t % 256) = t := by
  rw [word_of_bytes _ _ (by omega) (by omega)]
  omega

theorem validLabel_replicate (n x : Nat) (h1 : 1 ≤ n) (h2 : n ≤ 255) (hx : x < 256) :
    ValidLabel (List.replicate n x) := by
  refine ⟨by simpa using h1, by simpa using h2, ?_⟩
  intro y hy
  rw [List.eq_of_mem_replicate hy]
  exact hx

theorem validLabels_pair (a b : List Nat) (ha : ValidLabel a) (hb : ValidLabel b) :
    ∀ l ∈ [a, b], ValidLabel l := by
  intro l hl
  simp only [List.mem_cons, List.mem_singleton, List.not_mem_nil, or_false] at hl
  rcases hl with rfl | rfl
  · exact ha
  · exact hb

/-! ## Lemmas on the message assembler -/

theorem sliceFrom_sliceFrom (p s : Slice) (a b : Nat) (h : p.sliceFrom a = some s) :
    s.sliceFrom b = p.sliceFrom (a + b) := by
  unfold Slice.sliceFrom Slice.slice at h
  by_cases hc : a ≤ p.len ∧ p.len ≤ p.cap
  · rw [if_pos hc] at h
    simp only [Option.some.injEq] at h
    subst h
    simp only [Slice.sliceFrom, Slice.slice, Slice.cap, List.length_drop, List.drop_drop]
    simp only [Slice.cap] at hc
    by_cases hb : a + b ≤ p.len
    · rw [if_pos ⟨by omega, by omega⟩, if_pos ⟨hb, hc.2⟩]
      congr 2
      omega
    · rw [if_neg (by omega), if_neg (by omega)]
  · rw [if_neg hc] at h
    exact absurd h (by simp)

theorem cursorAt_succ (p : Slice) (c0 : Nat) (i : Nat) :
    cursorAt p c0 (i + 1) =
      (p.sliceFrom c0).bind fun s => (parseQuestion s).bind fun r => cursorAt p (c0 + r.2) i := by
  induction i with
  | zero =>
    simp only [cursorAt, Option.bind_eq_bind, Option.some_bind]
  | succ i ih =>
    rw [cursorAt, ih]
    cases p.sliceFrom c0 with
    | none => rfl
    | some s =>
      simp only [Option.bind_eq_bind, Option.some_bind]
      cases parseQuestion s with
      | none => rfl
      | some r =>
        simp only [Option.some_bind]
        rw [cursorAt]
        rfl

theorem questionAt_zero (p : Slice) (c0 : Nat) :
    questionAt p c0 0 = (p.sliceFrom c0).bind parseQuestion := by
  simp only [questionAt, cursorAt, Option.bind_eq_bind, Option.some_bind]

theorem questionAt_succ (p s : Slice) (c0 : Nat) (i : Nat) (q : Question) (n : Nat)
    (hs : p.sliceFrom c0 = some s) (hq : parseQuestion s = some (q, n)) :
    questionAt p c0 (i + 1) = questionAt p (c0 + n) i := by
  simp only [questionAt, cursorAt_succ, hs, hq, Option.bind_eq_bind, Option.some_bind]

theorem Parse_loop_succ (k i : Nat) (packet : Slice) (n : Nat) (qs : List Question) :
    Parse.loop (k + 1) i packet n qs =
      (packet.sliceFrom n).bind fun s => (parseQuestion s).bind fun r =>
        Parse.loop k (i + 1) s r.2 (qs.set i r.1) := by
  rw [Parse.loop]
  rfl

theorem Parse_loop_isSome (p : Slice) (k : Nat) : ∀ (i : Nat) (packet : Slice) (n : Nat)
    (qs : List Question) (c : Nat), packet.sliceFrom n = p.sliceFrom c →
    ((Parse.loop k i packet n qs).isSome ↔ ∀ j < k, (questionAt p c j).isSome) := by
  induction k with
  | zero =>
    intro i packet n qs c _
    simp [Parse.loop]
  | succ k ih =>
    intro i packet n qs c h
    rw [Parse_loop_succ, h]
    cases hs : p.sliceFrom c with
    | none =>
      simp only [Option.none_bind, Option.isSome_none, Bool.false_eq_true, false_iff, not_forall]
      exact ⟨0, Nat.succ_pos k, by simp [questionAt_zero, hs]⟩
    | some s =>
      simp only [Option.some_bind]
      cases hq : parseQuestion s with
      | none =>
        simp only [Option.none_bind, Option.isSome_none, Bool.false_eq_true, false_iff,
          not_forall]
        exact ⟨0, Nat.succ_pos k, by simp [questionAt_zero, hs, hq]⟩
      | some r =>
        obtain ⟨q, m⟩ := r
        simp only [Option.some_bind]
        rw [ih (i + 1) s m (qs.set i q) (c + m) (sliceFrom_sliceFrom p s c m hs)]
        constructor
        · intro hall j hj
          cases j with
          | zero => simp [questionAt_zero, hs, hq]
          | succ j =>
            rw [questionAt_succ p s c j q m hs hq]
            exact hall j (by omega)
        · intro hall j hj
          rw [← questionAt_succ p s c j q m hs hq]
          exact hall (j + 1) (by omega)

theorem Parse_loop_result (p : Slice) (k : Nat) : ∀ (i : Nat) (packet : Slice) (n : Nat)
    (qs : List Question) (c : Nat) (out : List Question),
    packet.sliceFrom n = p.sliceFrom c → i + k ≤ qs.length →
    Parse.loop k i packet n qs = some out →
    out.length = qs.length ∧
    (∀ j < k, ∃ q m, questionAt p c j = some (q, m) ∧ out[i + j]? = some q) ∧
    (∀ j < i, out[j]? = qs[j]?) := by
  induction k with
  | zero =>
    intro i packet n qs c out _ _ h
    simp only [Parse.loop, Option.some.injEq] at h
    subst h
    exact ⟨rfl, fun j hj => absurd hj (by omega), fun j _ => rfl⟩
  | succ k ih =>
    intro i packet n qs c out h hlen hout
    rw [Parse_loop_succ, h] at hout
    cases hs : p.sliceFrom c with
    | none =>
      rw [hs] at hout
      exact absurd hout (by simp)
    | some s =>
      rw [hs] at hout
      simp only [Option.some_bind] at hout
      cases hq : parseQuestion s with
      | none =>
        rw [hq] at hout
        exact absurd hout (by simp)
      | some r =>
        obtain ⟨q, m⟩ := r
        rw [hq] at hout
        simp only [Option.some_bind] at hout
        obtain ⟨hl, hquest, hkeep⟩ := ih (i + 1) s m (qs.set i q) (c + m) out
          (sliceFrom_sliceFrom p s c m hs) (by simp only [List.length_set]; omega) hout
        simp only [List.length_set] at hl
        refine ⟨hl, ?_, ?_⟩
        · intro j hj
          cases j with
          | zero =>
            refine ⟨q, m, by simp [questionAt_zero, hs, hq], ?_⟩
            rw [Nat.add_zero, hkeep i (by omega)]
            simp [List.getElem?_set]
            omega
          | succ j =>
            obtain ⟨q1, m1, hq1, ho1⟩ := hquest j (by omega)
            refine ⟨q1, m1, ?_, ?_⟩
            · rw [questionAt_succ p s c j q m hs hq]
              exact hq1
            · rw [← ho1]
              congr 1
              omega
        · intro j hj
          rw [hkeep j (by omega)]
          simp [List.getElem?_set]
          omega

theorem Parse_eq (p : Slice) (hd : Header) (n : Nat) (h : parseHeader p = some (hd, n)) :
    Parse p = (Parse.loop hd.QuestionCount 0 p n
      (List.replicate hd.QuestionCount default)).bind fun qs => some ⟨hd, qs⟩ := by
  simp only [Parse, h, Option.bind_eq_bind, Option.some_bind]

theorem Parse_none_of_header (p : Slice) (h : parseHeader p = none) : Parse p = none := by
  simp [Parse, h]

/-- A message that the assembler returns holds the header that the header
decoder returns and, in order, the questions decoded at the cursors. -/
theorem Parse_some (p : Slice) (m : DNSMessage) (hm : Parse p = some m) :
    parseHeader p = some (m.Header, 12) ∧
    m.Questions.length = m.Header.QuestionCount ∧
    ∀ i < m.Header.QuestionCount, ∃ q n, questionAt p 12 i = some (q, n) ∧
      m.Questions[i]? = some q := by
  cases hh : parseHeader p with
  | none =>
    rw [Parse_none_of_header p hh] at hm
    exact absurd hm (by simp)
  | some r =>
    obtain ⟨hd, n⟩ := r
    obtain ⟨hn, -⟩ := parseHeader_consumed p hd n hh
    subst hn
    rw [Parse_eq p hd 12 hh] at hm
    cases hl : Parse.loop hd.QuestionCount 0 p 12 (List.replicate hd.QuestionCount default) with
    | none => rw [hl] at hm; exact absurd hm (by simp)
    | some qs =>
      rw [hl] at hm
      simp only [Option.some_bind, Option.some.injEq] at hm
      subst hm
      obtain ⟨hlen, hq, -⟩ := Parse_loop_result p hd.QuestionCount 0 p 12
        (List.replicate hd.QuestionCount default) 12 qs rfl (by simp) hl
      refine ⟨rfl, by simpa using hlen, ?_⟩
      intro i hi
      obtain ⟨q, n, h1, h2⟩ := hq i hi
      exact ⟨q, n, h1, by simpa using h2⟩

theorem byteAt_mk (d : List Nat) (n i : Nat) (x : Nat) (h : i < n) (hx : d[i]? = some x) :
    Slice.byteAt ⟨d, n⟩ i = x := by
  simp [Slice.byteAt, Slice.index, h, hx]

theorem byteAt_mk_ge (d : List Nat) (n i : Nat) (h : n ≤ i) :
    Slice.byteAt ⟨d, n⟩ i = 0 := by
  simp [Slice.byteAt, Slice.index, Nat.not_lt.2 h]

/-- The question count that the header decoder returns on a well-formed
slice. -/
theorem parseHeader_count (p : Slice) (hwf : p.WF) (hd : Header) (n : Nat)
    (h : parseHeader p = some (hd, n)) :
    (6 ≤ p.len → hd.QuestionCount = 256 * p.byteAt 4 + p.byteAt 5) ∧
    (hd.QuestionCount = 0 → p.byteAt 4 = 0 ∧ p.byteAt 5 = 0) := by
  obtain ⟨-, hcap⟩ := parseHeader_consumed p hd n h
  obtain ⟨d, len⟩ := p
  obtain ⟨b0, b1, b2, b3, b4, b5, b6, b7, b8, b9, b10, b11, rest, rfl⟩ := exists_cons12 d hcap
  rw [parseHeader_cons] at h
  simp only [Option.some.injEq, Prod.mk.injEq] at h
  have hb := hwf.2
  simp only [List.mem_cons, forall_eq_or_imp] at hb
  obtain ⟨-, -, -, -, h4, h5, -⟩ := hb
  have hc : hd.QuestionCount = 256 * b4 + b5 := by
    rw [← h.1]
    exact word_of_bytes b4 b5 h4 h5
  constructor
  · intro hl
    simp only at hl
    rw [byteAt_mk _ _ 4 b4 (by omega) (by simp), byteAt_mk _ _ 5 b5 (by omega) (by simp)]
    exact hc
  · intro h0
    rw [hc] at h0
    have e4 : b4 = 0 := by omega
    have e5 : b5 = 0 := by omega
    subst e4 e5
    constructor
    · by_cases hl : 4 < len
      · exact byteAt_mk _ _ 4 0 hl (by simp)
      · exact byteAt_mk_ge _ _ _ (by omega)
    · by_cases hl : 5 < len
      · exact byteAt_mk _ _ 5 0 hl (by simp)
      · exact byteAt_mk_ge _ _ _ (by omega)

theorem sliceFrom_isSome_le (p : Slice) (c : Nat) (h : (p.sliceFrom c).isSome) : c ≤ p.len := by
  unfold Slice.sliceFrom Slice.slice at h
  by_cases hc : c ≤ p.len ∧ p.len ≤ p.cap
  · exact hc.1
  · rw [if_neg hc] at h
    exact absurd h (by simp)

/-! ## The header decoder and the bit-field extractor: claims -/

/-- C4: on a well-formed slice of at least 12 bytes `parseHeader` succeeds
with consumed length 12; every 16-bit field is `256 * high + low` of its two
bytes at offsets 0, 4, 6, 8, 10, the flag is `parseFlag` of the sub-slice
`b[2:4]`, and two such slices with the same first 12 bytes give the same
result. -/
theorem parseHeader_fields (b : Slice) (hwf : b.WF) (hlen : 12 ≤ b.len) :
    ∃ flag, (b.slice 2 4).bind parseFlag = some flag ∧
      parseHeader b = some (⟨256 * b.byteAt 0 + b.byteAt 1, flag,
        256 * b.byteAt 4 + b.byteAt 5, 256 * b.byteAt 6 + b.byteAt 7,
        256 * b.byteAt 8 + b.byteAt 9, 256 * b.byteAt 10 + b.byteAt 11⟩, 12) ∧
      ∀ b1 : Slice, b1.WF → 12 ≤ b1.len → b1.bytes.take 12 = b.bytes.take 12 →
        parseHeader b1 = parseHeader b := by
  have frame : ∀ c : Slice, c.WF → 12 ≤ c.len → ∃ b0 b1 b2 b3 b4 b5 b6 b7 b8 b9 b10 b11 rest,
      c.data = b0 :: b1 :: b2 :: b3 :: b4 :: b5 :: b6 :: b7 :: b8 :: b9 :: b10 :: b11 :: rest ∧
      c.bytes.take 12 = [b0, b1, b2, b3, b4, b5, b6, b7, b8, b9, b10, b11] := by
    intro c hc hl
    obtain ⟨d, n⟩ := c
    obtain ⟨b0, b1, b2, b3, b4, b5, b6, b7, b8, b9, b10, b11, rest, rfl⟩ :=
      exists_cons12 d (le_trans hl hc.1)
    refine ⟨b0, b1, b2, b3, b4, b5, b6, b7, b8, b9, b10, b11, rest, rfl, ?_⟩
    simp only [Slice.bytes, List.take_take]
    rw [Nat.min_eq_left hl]
    rfl
  obtain ⟨b0, b1, b2, b3, b4, b5, b6, b7, b8, b9, b10, b11, rest, hdata, htake⟩ := frame b hwf hlen
  obtain ⟨d, n⟩ := b
  simp only at hdata
  subst hdata
  have hb : ∀ x ∈ b0 :: b1 :: b2 :: b3 :: b4 :: b5 :: b6 :: b7 :: b8 :: b9 :: b10 :: b11 :: rest,
      x < 256 := hwf.2
  simp only [List.mem_cons, forall_eq_or_imp] at hb
  obtain ⟨h0, h1, h2, h3, h4, h5, h6, h7, h8, h9, h10, h11, -⟩ := hb
  refine ⟨⟨b2 / 128 % 2, b2 / 8 % 16, b2 / 4 % 2, b2 / 2 % 2, b2 % 2, b3 / 128 % 2, b3 % 16⟩,
    ?_, ?_, ?_⟩
  · simp only [Slice.slice, Slice.cap, List.length_cons]
    simp only [List.drop]
    rw [if_pos (by omega)]
    exact parseFlag_pair _ _ _ _ (le_refl 2)
  · rw [parseHeader_cons]
    simp only [Slice.byteAt, Slice.index]
    simp only at hlen
    simp [show 0 < n by omega, show 1 < n by omega, show 4 < n by omega, show 5 < n by omega,
      show 6 < n by omega, show 7 < n by omega, show 8 < n by omega, show 9 < n by omega,
      show 10 < n by omega, show 11 < n by omega]
    have w := fun x y hx hy => word_of_bytes x y hx hy
    simp only [show (2:Nat) ^ 8 = 256 by rfl] at w
    exact ⟨w _ _ h0 h1, w _ _ h4 h5, w _ _ h6 h7, w _ _ h8 h9, w _ _ h10 h11⟩
  · intro c hc hl heq
    obtain ⟨c0, c1, c2, c3, c4, c5, c6, c7, c8, c9, c10, c11, crest, hcd, hct⟩ := frame c hc hl
    obtain ⟨cd, cn⟩ := c
    simp only at hcd
    subst hcd
    rw [hct, htake] at heq
    simp only [List.cons.injEq, and_true] at heq
    obtain ⟨e0, e1, e2, e3, e4, e5, e6, e7, e8, e9, e10, e11⟩ := heq
    subst e0 e1 e2 e3 e4 e5 e6 e7 e8 e9 e10 e11
    rw [parseHeader_cons, parseHeader_cons]

theorem parseHeader_fields_witness :
    (Slice.ofBytes examplePacket).WF ∧ 12 ≤ (Slice.ofBytes examplePacket).len ∧
    ∃ flag, ((Slice.ofBytes examplePacket).slice 2 4).bind parseFlag = some flag ∧
      parseHeader (Slice.ofBytes examplePacket) = some (⟨256 * (Slice.ofBytes examplePacket).byteAt 0 + (Slice.ofBytes examplePacket).byteAt 1, flag,
        256 * (Slice.ofBytes examplePacket).byteAt 4 + (Slice.ofBytes examplePacket).byteAt 5, 256 * (Slice.ofBytes examplePacket).byteAt 6 + (Slice.ofBytes examplePacket).byteAt 7,
        256 * (Slice.ofBytes examplePacket).byteAt 8 + (Slice.ofBytes examplePacket).byteAt 9, 256 * (Slice.ofBytes examplePacket).byteAt 10 + (Slice.ofBytes examplePacket).byteAt 11⟩, 12) ∧
      ∀ b1 : Slice, b1.WF → 12 ≤ b1.len → b1.bytes.take 12 = (Slice.ofBytes examplePacket).bytes.take 12 →
        parseHeader b1 = parseHeader (Slice.ofBytes examplePacket) :=
  ⟨by decide, by decide, parseHeader_fields (Slice.ofBytes examplePacket) (by decide) (by decide)⟩

/-- C5: flag round trip. `parseFlag` applied to a two-byte slice holding
`128*qr + 8*opcode + 4*aa + 2*tc + rd` and `128*ra + 16*z + rcode` returns
the seven packed fields; the reserved bits `z` reach no field. -/
theorem parseFlag_roundtrip (qr opcode aa tc rd ra z rcode : Nat) (rest : List Nat)
    (hqr : qr ≤ 1) (hop : opcode ≤ 15) (haa : aa ≤ 1) (htc : tc ≤ 1) (hrd : rd ≤ 1)
    (hra : ra ≤ 1) (hz : z ≤ 7) (hrc : rcode ≤ 15) :
    parseFlag ⟨(128 * qr + 8 * opcode + 4 * aa + 2 * tc + rd) :: (128 * ra + 16 * z + rcode) :: rest, 2⟩
      = some ⟨qr, opcode, aa, tc, rd, ra, rcode⟩ := by
  rw [parseFlag_pair _ _ _ _ (le_refl 2)]
  simp only [Option.some.injEq, Flag.mk.injEq]
  refine ⟨?_, ?_, ?_, ?_, ?_, ?_, ?_⟩ <;> omega

theorem parseFlag_roundtrip_witness :
    (1 : Nat) ≤ 1 ∧ (5 : Nat) ≤ 15 ∧ (0 : Nat) ≤ 1 ∧ (1 : Nat) ≤ 1 ∧ (1 : Nat) ≤ 1 ∧
    (1 : Nat) ≤ 1 ∧ (7 : Nat) ≤ 7 ∧ (3 : Nat) ≤ 15 ∧
    parseFlag ⟨(128 * 1 + 8 * 5 + 4 * 0 + 2 * 1 + 1) :: (128 * 1 + 16 * 7 + 3) :: [], 2⟩
      = some ⟨1, 5, 0, 1, 1, 1, 3⟩ :=
  ⟨by decide, by decide, by decide, by decide, by decide, by decide, by decide, by decide,
    parseFlag_roundtrip 1 5 0 1 1 1 7 3 [] (by decide) (by decide) (by decide) (by decide)
      (by decide) (by decide) (by decide) (by decide)⟩

/-- C6: for a byte `b` and `0 ≤ s ≤ e ≤ 8`, `bitTobyte b s e` is
`b / 2 ^ (8 - e) % 2 ^ (e - s)`; for the full range `s = 0`, `e = 8` the mask
wraps to 255 and the result is `b`; for an empty range the result is 0. -/
theorem bitTobyte_spec (b : Nat) (hb : b < 256) :
    (∀ s e : Int, 0 ≤ s → s ≤ e → e ≤ 8 →
      bitTobyte b s e = some (b / 2 ^ (8 - e).toNat % 2 ^ (e - s).toNat)) ∧
    bitTobyte b 0 8 = some b ∧
    (∀ s : Int, 0 ≤ s → s ≤ 8 → bitTobyte b s s = some 0) := by
  refine ⟨fun s e h0 hse he => bitTobyte_eq b s e h0 hse he, ?_, ?_⟩
  · rw [bitTobyte_eq b 0 8 (by decide) (by decide) (by decide)]
    have e0 : Int.toNat (8 - 8) = 0 := rfl
    have e8 : Int.toNat (8 - 0) = 8 := rfl
    rw [e0, e8]
    simp
    omega
  · intro s h0 h8
    rw [bitTobyte_eq b s s h0 (le_refl s) h8]
    simp [Nat.mod_one]

theorem bitTobyte_spec_witness :
    (171 : Nat) < 256 ∧
    ((∀ s e : Int, 0 ≤ s → s ≤ e → e ≤ 8 →
      bitTobyte 171 s e = some (171 / 2 ^ (8 - e).toNat % 2 ^ (e - s).toNat)) ∧
    bitTobyte 171 0 8 = some 171 ∧
    (∀ s : Int, 0 ≤ s → s ≤ 8 → bitTobyte 171 s s = some 0)) :=
  ⟨by decide, bitTobyte_spec 171 (by decide)⟩

/-- C8: on a slice whose capacity equals its length `parseHeader` fails
exactly when the length is below 12, whatever the bytes are; hence `Parse`
fails on every such slice shorter than 12 bytes, the empty one included. -/
theorem parseHeader_fails_iff :
    (∀ l : List Nat, parseHeader (Slice.ofBytes l) = none ↔ l.length < 12) ∧
    (∀ l : List Nat, l.length < 12 → Parse (Slice.ofBytes l) = none) ∧
    Parse (Slice.ofBytes []) = none := by
  have h1 : ∀ l : List Nat, parseHeader (Slice.ofBytes l) = none ↔ l.length < 12 := by
    intro l
    constructor
    · intro h
      by_contra hc
      obtain ⟨hd, h2⟩ := parseHeader_isSome (Slice.ofBytes l) (by simp [Slice.cap, Slice.ofBytes]; omega)
      rw [h2] at h
      exact absurd h (by simp)
    · intro h
      exact parseHeader_short _ (by simpa [Slice.cap, Slice.ofBytes] using h)
  have h2 : ∀ l : List Nat, l.length < 12 → Parse (Slice.ofBytes l) = none := by
    intro l hl
    simp [Parse, (h1 l).2 hl]
  exact ⟨h1, h2, h2 [] (by decide)⟩

/-! ## The question decoder: claims -/

/-- C1: for labels of 1 to 255 bytes each (lengths 192 to 255 included),
16-bit values `t` and `c`, trailing bytes `r` and any spare capacity,
`parseQuestion` on the wire form of the labels, the zero byte, the big-endian
bytes of `t` and `c` and then `r` succeeds with the name `joinLabels ls` (the
labels joined by single dots, empty for no label), type `t` and class `c`. -/
theorem parseQuestion_labels (ls : List (List Nat)) (hls : ∀ l ∈ ls, ValidLabel l)
    (t c : Nat) (ht : t < 65536) (hc : c < 65536) (r extra : List Nat) :
    ∃ n, parseQuestion (Slice.withCap
        (encodeLabels ls ++ [0] ++ [t / 256, t % 256, c / 256, c % 256] ++ r) extra)
      = some (⟨joinLabels ls, t, c⟩, n) := by
  have h := parseQuestion_encode ls (fun l hl => (hls l hl).ne_nil) (t / 256) (t % 256)
    (c / 256) (c % 256) (r ++ extra)
    (encodeLabels ls ++ [0] ++ [t / 256, t % 256, c / 256, c % 256] ++ r).length
    (by simp)
  rw [word_split t ht, word_split c hc] at h
  refine ⟨(encodeLabels ls).length + 1 + 4, ?_⟩
  simp only [Slice.withCap, List.append_assoc, List.singleton_append, List.cons_append,
    List.nil_append] at h ⊢
  exact h

theorem parseQuestion_labels_witness :
    (∀ l ∈ [List.replicate 192 97, [99, 111, 109]], ValidLabel l) ∧
    (1 : Nat) < 65536 ∧ (255 : Nat) < 65536 ∧
    ∃ n, parseQuestion (Slice.withCap
        (encodeLabels [List.replicate 192 97, [99, 111, 109]] ++ [0]
          ++ [1 / 256, 1 % 256, 255 / 256, 255 % 256] ++ [7, 7]) [9])
      = some (⟨joinLabels [List.replicate 192 97, [99, 111, 109]], 1, 255⟩, n) :=
  ⟨validLabels_pair _ _ (validLabel_replicate 192 97 (by decide) (by decide) (by decide))
      (by decide), by decide, by decide,
    parseQuestion_labels [List.replicate 192 97, [99, 111, 109]]
      (validLabels_pair _ _ (validLabel_replicate 192 97 (by decide) (by decide) (by decide))
        (by decide)) 1 255
      (by decide) (by decide) [7, 7] [9]⟩

/-- C2: for `N` labels of 1 to 255 bytes each and total length `L`, followed
by the zero byte, four bytes and any trailing bytes, `parseQuestion` returns
the consumed length `L + N + 1 + 4`; on a buffer that starts with the zero
byte it returns the empty name and the consumed length 5. -/
theorem parseQuestion_consumed (ls : List (List Nat)) (hls : ∀ l ∈ ls, ValidLabel l)
    (t0 t1 c0 c1 : Nat) (r extra : List Nat) :
    (∃ q, parseQuestion (Slice.withCap (encodeLabels ls ++ [0] ++ [t0, t1, c0, c1] ++ r) extra)
      = some (q, (ls.map List.length).sum + ls.length + 1 + 4)) ∧
    (∃ q, parseQuestion (Slice.withCap ([0] ++ [t0, t1, c0, c1] ++ r) extra) = some (q, 5) ∧
      q.Name = "") := by
  constructor
  · have h := parseQuestion_encode ls (fun l hl => (hls l hl).ne_nil) t0 t1 c0 c1 (r ++ extra)
      (encodeLabels ls ++ [0] ++ [t0, t1, c0, c1] ++ r).length (by simp)
    rw [encodeLabels_length] at h
    refine ⟨⟨joinLabels ls, ((t0 * 2 ^ 8) % 65536) ||| t1, ((c0 * 2 ^ 8) % 65536) ||| c1⟩, ?_⟩
    simp only [Slice.withCap, List.append_assoc, List.singleton_append, List.cons_append,
      List.nil_append] at h ⊢
    exact h
  · have h := parseQuestion_encode [] (by simp) t0 t1 c0 c1 (r ++ extra)
      ([0] ++ [t0, t1, c0, c1] ++ r).length (by simp [encodeLabels])
    refine ⟨⟨joinLabels [], ((t0 * 2 ^ 8) % 65536) ||| t1, ((c0 * 2 ^ 8) % 65536) ||| c1⟩,
      ?_, ?_⟩
    · simp only [Slice.withCap, List.append_assoc, List.singleton_append, List.cons_append,
        List.nil_append, encodeLabels, List.length_nil] at h ⊢
      exact h
    · rfl

theorem parseQuestion_consumed_witness :
    (∀ l ∈ [[119, 119, 119], [97]], ValidLabel l) ∧
    (∃ q, parseQuestion (Slice.withCap (encodeLabels [[119, 119, 119], [97]] ++ [0]
        ++ [0, 1, 0, 1] ++ [5]) [])
      = some (q, ([[119, 119, 119], [97]].map List.length).sum
          + [[119, 119, 119], [97]].length + 1 + 4)) ∧
    (∃ q, parseQuestion (Slice.withCap ([0] ++ [0, 1, 0, 1] ++ [5]) []) = some (q, 5) ∧
      q.Name = "") :=
  ⟨by decide, parseQuestion_consumed [[119, 119, 119], [97]] (by decide) 0 1 0 1 [5] []⟩

/-- C7: on a slice of bytes whose capacity equals its length `parseQuestion`
fails exactly when the buffer is not the wire form of labels of 1 to 255
bytes, a zero byte, four bytes and a rest. In particular it fails when the
length byte read after some labels claims more bytes than remain, when the
buffer ends before the zero byte, and when fewer than four bytes follow the
zero byte. -/
theorem parseQuestion_fails_iff (buf : List Nat) (hb : ∀ x ∈ buf, x < 256) :
    (parseQuestion (Slice.ofBytes buf) = none ↔
      ¬ ∃ ls four r, (∀ l ∈ ls, ValidLabel l) ∧ four.length = 4 ∧
        buf = encodeLabels ls ++ [0] ++ four ++ r) ∧
    (∀ ls k rest, (∀ l ∈ ls, ValidLabel l) → buf = encodeLabels ls ++ k :: rest →
      k ≠ 0 → (encodeLabels ls).length + 1 + k > buf.length →
      parseQuestion (Slice.ofBytes buf) = none) ∧
    (∀ ls, (∀ l ∈ ls, ValidLabel l) → buf = encodeLabels ls →
      parseQuestion (Slice.ofBytes buf) = none) ∧
    (∀ ls r, (∀ l ∈ ls, ValidLabel l) → buf = encodeLabels ls ++ 0 :: r → r.length < 4 →
      parseQuestion (Slice.ofBytes buf) = none) := by
  refine ⟨⟨?_, ?_⟩, ?_, ?_, ?_⟩
  · rintro hnone ⟨ls, four, r, hls, h4, rfl⟩
    match four, h4 with
    | [t0, t1, c0, c1], _ =>
      have := parseQuestion_encode ls (fun l hl => (hls l hl).ne_nil) t0 t1 c0 c1 r
        (encodeLabels ls ++ [0] ++ [t0, t1, c0, c1] ++ r).length (by simp)
      simp only [Slice.ofBytes, List.append_assoc, List.singleton_append, List.cons_append,
        List.nil_append] at hnone this
      rw [this] at hnone
      exact absurd hnone (by simp)
  · intro hno
    by_contra hsome
    obtain ⟨⟨q, n⟩, hq⟩ := Option.ne_none_iff_exists'.1 hsome
    obtain ⟨ls, t0, t1, c0, c1, r, hls, hdata, -, -, -⟩ := parseQuestion_some _ q n hq
    simp only [Slice.ofBytes] at hdata hls
    apply hno
    refine ⟨ls, [t0, t1, c0, c1], r, ?_, rfl, by simp [hdata]⟩
    intro l hl
    refine ⟨?_, ?_, ?_⟩
    · have := (hls l hl).1
      cases l with
      | nil => exact absurd rfl this
      | cons a l => simp
    · have := hb _ (hls l hl).2
      omega
    · intro x hx
      apply hb
      rw [hdata]
      exact List.mem_append_left _ (mem_encodeLabels ls l x hl hx)
  · intro ls k rest hls hbuf hk hlen
    subst hbuf
    have hloop : parseQuestion.loop (Slice.ofBytes (encodeLabels ls ++ k :: rest)) 0 "" = none := by
      simp only [Slice.ofBytes]
      rw [loop_labels_nil ls (fun l hl => (hls l hl).ne_nil) _ _ (by simp)]
      rw [loop_label _ _ _ k (index_append _ _ _ _ (by simp)) hk]
      have : Slice.slice ⟨encodeLabels ls ++ k :: rest, (encodeLabels ls ++ k :: rest).length⟩
          ((encodeLabels ls).length + 1) ((encodeLabels ls).length + 1 + k) = none := by
        simp only [Slice.slice, Slice.cap]
        rw [if_neg (by omega)]
      rw [this]
      rfl
    exact parseQuestion_none_of_loop _ hloop
  · intro ls hls hbuf
    subst hbuf
    have hloop : parseQuestion.loop (Slice.ofBytes (encodeLabels ls)) 0 "" = none := by
      simp only [Slice.ofBytes]
      have := loop_labels_nil ls (fun l hl => (hls l hl).ne_nil) [] (encodeLabels ls).length
        (le_refl _)
      simp only [List.append_nil] at this
      rw [this]
      exact loop_none _ _ _ (index_append_nil _ _)
    exact parseQuestion_none_of_loop _ hloop
  · intro ls r hls hbuf hr
    subst hbuf
    have hloop : parseQuestion.loop (Slice.ofBytes (encodeLabels ls ++ 0 :: r)) 0 ""
        = some (joinLabels ls, (encodeLabels ls).length + 1) := by
      simp only [Slice.ofBytes]
      rw [loop_labels_nil ls (fun l hl => (hls l hl).ne_nil) _ _ (by simp)]
      exact loop_zero _ _ _ (index_append _ _ _ _ (by simp))
    exact parseQuestion_short _ _ _ hloop (by simp [Slice.cap, Slice.ofBytes]; omega)

theorem parseQuestion_fails_iff_witness :
    (∀ x ∈ [3, 99, 111], x < 256) ∧
    ((parseQuestion (Slice.ofBytes [3, 99, 111]) = none ↔
      ¬ ∃ ls four r, (∀ l ∈ ls, ValidLabel l) ∧ four.length = 4 ∧
        [3, 99, 111] = encodeLabels ls ++ [0] ++ four ++ r) ∧
    (∀ ls k rest, (∀ l ∈ ls, ValidLabel l) → [3, 99, 111] = encodeLabels ls ++ k :: rest →
      k ≠ 0 → (encodeLabels ls).length + 1 + k > [3, 99, 111].length →
      parseQuestion (Slice.ofBytes [3, 99, 111]) = none) ∧
    (∀ ls, (∀ l ∈ ls, ValidLabel l) → [3, 99, 111] = encodeLabels ls →
      parseQuestion (Slice.ofBytes [3, 99, 111]) = none) ∧
    (∀ ls r, (∀ l ∈ ls, ValidLabel l) → [3, 99, 111] = encodeLabels ls ++ 0 :: r →
      r.length < 4 → parseQuestion (Slice.ofBytes [3, 99, 111]) = none)) :=
  ⟨by decide, parseQuestion_fails_iff [3, 99, 111] (by decide)⟩

/-! ## The message assembler: claims -/

/-- C3: `Parse p` succeeds exactly when `parseHeader p` succeeds and
`parseQuestion` succeeds on `p[c_i:]` for every `i` below the question count,
where `c_0 = 12` and `c_(i+1) = c_i + n_i`; and then the header of the message
is the one `parseHeader` returns and question `i` of the message is `q_i`, in
that order. -/
theorem Parse_iff (p : Slice) :
    ((Parse p).isSome ↔ ∃ hd n, parseHeader p = some (hd, n) ∧
      ∀ i < hd.QuestionCount, (questionAt p 12 i).isSome) ∧
    (∀ m, Parse p = some m → parseHeader p = some (m.Header, 12) ∧
      m.Questions.length = m.Header.QuestionCount ∧
      ∀ i < m.Header.QuestionCount, ∃ q n, questionAt p 12 i = some (q, n) ∧
        m.Questions[i]? = some q) := by
  refine ⟨?_, fun m hm => Parse_some p m hm⟩
  cases hh : parseHeader p with
  | none =>
    rw [Parse_none_of_header p hh]
    simp
  | some r =>
    obtain ⟨hd, n⟩ := r
    obtain ⟨hn, -⟩ := parseHeader_consumed p hd n hh
    subst hn
    rw [Parse_eq p hd 12 hh]
    have := Parse_loop_isSome p hd.QuestionCount 0 p 12
      (List.replicate hd.QuestionCount default) 12 rfl
    constructor
    · intro hsome
      refine ⟨hd, 12, rfl, this.1 ?_⟩
      cases hl : Parse.loop hd.QuestionCount 0 p 12 (List.replicate hd.QuestionCount default) with
      | none => rw [hl] at hsome; exact absurd hsome (by simp)
      | some qs => rfl
    · rintro ⟨hd1, n1, h1, hall⟩
      simp only [Option.some.injEq, Prod.mk.injEq] at h1
      obtain ⟨rfl, -⟩ := h1
      have h2 := this.2 hall
      obtain ⟨qs, hqs⟩ := Option.isSome_iff_exists.1 h2
      rw [hqs]
      rfl

/-- C9: when `Parse` succeeds on a well-formed slice, the number of questions
of the message equals its `QuestionCount`, which is `256 * p[4] + p[5]`; and
when bytes 4 and 5 are zero `Parse` succeeds on every slice of at least 12
bytes and returns no question. -/
theorem Parse_question_count (p : Slice) (hwf : p.WF) :
    (∀ m, Parse p = some m → m.Questions.length = m.Header.QuestionCount ∧
      m.Header.QuestionCount = 256 * p.byteAt 4 + p.byteAt 5) ∧
    (12 ≤ p.len → p.byteAt 4 = 0 → p.byteAt 5 = 0 →
      ∃ m, Parse p = some m ∧ m.Questions = []) := by
  constructor
  · intro m hm
    obtain ⟨hh, hlen, hq⟩ := Parse_some p m hm
    refine ⟨hlen, ?_⟩
    obtain ⟨hc1, hc2⟩ := parseHeader_count p hwf m.Header 12 hh
    by_cases h0 : m.Header.QuestionCount = 0
    · obtain ⟨e4, e5⟩ := hc2 h0
      rw [h0, e4, e5]
    · apply hc1
      obtain ⟨q, n, hq0, -⟩ := hq 0 (by omega)
      rw [questionAt_zero] at hq0
      have : (p.sliceFrom 12).isSome := by
        cases hs : p.sliceFrom 12 with
        | none => rw [hs] at hq0; exact absurd hq0 (by simp)
        | some s => rfl
      have := sliceFrom_isSome_le p 12 this
      omega
  · intro hl h4 h5
    obtain ⟨hd, hh⟩ := parseHeader_isSome p (le_trans hl hwf.1)
    have hc := (parseHeader_count p hwf hd 12 hh).1 (by omega)
    rw [h4, h5] at hc
    simp only [Nat.mul_zero, Nat.add_zero] at hc
    refine ⟨⟨hd, []⟩, ?_, rfl⟩
    rw [Parse_eq p hd 12 hh, hc]
    rfl

theorem Parse_question_count_witness :
    (Slice.ofBytes [0, 7, 1, 0, 0, 0, 0, 0, 0, 0, 0, 0, 9]).WF ∧
    ((∀ m, Parse (Slice.ofBytes [0, 7, 1, 0, 0, 0, 0, 0, 0, 0, 0, 0, 9]) = some m →
      m.Questions.length = m.Header.QuestionCount ∧
      m.Header.QuestionCount
        = 256 * (Slice.ofBytes [0, 7, 1, 0, 0, 0, 0, 0, 0, 0, 0, 0, 9]).byteAt 4 + (Slice.ofBytes [0, 7, 1, 0, 0, 0, 0, 0, 0, 0, 0, 0, 9]).byteAt 5) ∧
    (12 ≤ (Slice.ofBytes [0, 7, 1, 0, 0, 0, 0, 0, 0, 0, 0, 0, 9]).len → (Slice.ofBytes [0, 7, 1, 0, 0, 0, 0, 0, 0, 0, 0, 0, 9]).byteAt 4 = 0 →
      (Slice.ofBytes [0, 7, 1, 0, 0, 0, 0, 0, 0, 0, 0, 0, 9]).byteAt 5 = 0 →
      ∃ m, Parse (Slice.ofBytes [0, 7, 1, 0, 0, 0, 0, 0, 0, 0, 0, 0, 9]) = some m ∧ m.Questions = [])) :=
  ⟨by decide, Parse_question_count (Slice.ofBytes [0, 7, 1, 0, 0, 0, 0, 0, 0, 0, 0, 0, 9]) (by decide)⟩

/-- C10: the end-to-end example. `Parse` on the 29-byte packet returns the
header with identifier 1, recursion desired 1, question count 1 and all other
fields 0, and the single question `example.com` of type 1 and class 1, whose
`TypeString` is `A` and `ClassString` is `IN`; `String` of the message is
`QUERY:<tab>example.com<tab>A<tab>IN`. -/
theorem Parse_example :
    Parse (Slice.ofBytes examplePacket)
      = some ⟨⟨1, ⟨0, 0, 0, 0, 1, 0, 0⟩, 1, 0, 0, 0⟩, [⟨"example.com", 1, 1⟩]⟩ ∧
    (⟨"example.com", 1, 1⟩ : Question).TypeString = "A" ∧
    (⟨"example.com", 1, 1⟩ : Question).ClassString = "IN" ∧
    (Parse (Slice.ofBytes examplePacket)).map DNSMessage.String
      = some "QUERY:\texample.com\tA\tIN" := by
  have hh : parseHeader (Slice.ofBytes examplePacket)
      = some (⟨1, ⟨0, 0, 0, 0, 1, 0, 0⟩, 1, 0, 0, 0⟩, 12) := by decide
  have hq : parseQuestion ⟨encodeLabels [[101, 120, 97, 109, 112, 108, 101], [99, 111, 109]]
        ++ 0 :: 0 :: 1 :: 0 :: 1 :: [], 17⟩
      = some (⟨"example.com", 1, 1⟩, 17) := by
    rw [parseQuestion_encode _ (by decide) 0 1 0 1 [] 17 (by decide)]
    decide
  have hs : (Slice.ofBytes examplePacket).sliceFrom 12
      = some ⟨encodeLabels [[101, 120, 97, 109, 112, 108, 101], [99, 111, 109]]
        ++ 0 :: 0 :: 1 :: 0 :: 1 :: [], 17⟩ := by decide
  have hp : Parse (Slice.ofBytes examplePacket)
      = some ⟨⟨1, ⟨0, 0, 0, 0, 1, 0, 0⟩, 1, 0, 0, 0⟩, [⟨"example.com", 1, 1⟩]⟩ := by
    have hl : Parse.loop 1 0 (Slice.ofBytes examplePacket) 12 (List.replicate 1 default)
        = some [⟨"example.com", 1, 1⟩] := by
      rw [Parse_loop_succ, hs]
      simp only [Option.some_bind, hq]
      rfl
    rw [Parse_eq _ _ _ hh, hl]
    rfl
  refine ⟨hp, by decide, by decide, ?_⟩
  rw [hp]
  decide

/-! ## Lemmas on the presentation and the flag fields -/

theorem opString_fallback (f : Flag) (h : f.OperationCode ∉ [0, 1, 2, 4, 5]) :
    f.OperationCodeString = "UNKOWN" := by
  unfold Flag.OperationCodeString
  simp only [List.mem_cons, List.mem_singleton, List.not_mem_nil, or_false, not_or] at h
  split <;> first | rfl | omega

theorem rcString_fallback (f : Flag) (h : 10 < f.ResponseCode) :
    f.ResponseCodeString = "UNKOWN" := by
  unfold Flag.ResponseCodeString
  split <;> first | rfl | omega

theorem rcString_named (f : Flag) (h : f.ResponseCode ≤ 10) :
    f.ResponseCodeString ≠ "UNKOWN" := by
  obtain ⟨a, b, c, d, e, g, rc⟩ := f
  simp only at h
  interval_cases rc <;> simp [Flag.ResponseCodeString]

theorem rcString_injective (f g : Flag) (hf : f.ResponseCode ≤ 10) (hg : g.ResponseCode ≤ 10)
    (h : f.ResponseCodeString = g.ResponseCodeString) : f.ResponseCode = g.ResponseCode := by
  obtain ⟨a, b, c, d, e, x, rc⟩ := f
  obtain ⟨a1, b1, c1, d1, e1, x1, rc1⟩ := g
  simp only at hf hg ⊢
  interval_cases rc <;> interval_cases rc1 <;> first | rfl | (exact absurd h (by simp [Flag.ResponseCodeString]))

theorem typeString_fallback (q : Question) (h : q.Type_ ∉ [1, 2, 5, 6, 12, 15, 16, 251, 252, 253, 254, 255]) :
    q.TypeString = "UNKOWN" := by
  unfold Question.TypeString
  simp only [List.mem_cons, List.mem_singleton, List.not_mem_nil, or_false, not_or] at h
  split <;> first | rfl | omega

theorem classString_fallback (q : Question) (h : q.Class ∉ [1, 255]) :
    q.ClassString = "UNKOWN" := by
  unfold Question.ClassString
  simp only [List.mem_cons, List.mem_singleton, List.not_mem_nil, or_false, not_or] at h
  split <;> first | rfl | omega

theorem index_mk_eq_some (d : List Nat) (n i x : Nat) (h : Slice.index ⟨d, n⟩ i = some x) :
    d[i]? = some x := (index_eq_some _ _ _ h).2

theorem parseFlag_some (b : Slice) (f : Flag) (h : parseFlag b = some f) :
    ∃ b0 b1 rest, b.data = b0 :: b1 :: rest ∧
      f = ⟨b0 / 128 % 2, b0 / 8 % 16, b0 / 4 % 2, b0 / 2 % 2, b0 % 2, b1 / 128 % 2, b1 % 16⟩ := by
  obtain ⟨d, n⟩ := b
  have h1 : ∃ x, Slice.index ⟨d, n⟩ 1 = some x := by
    cases hx : Slice.index ⟨d, n⟩ 1 with
    | none =>
      simp [parseFlag, hx] at h
    | some x => exact ⟨x, rfl⟩
  obtain ⟨x, hx⟩ := h1
  obtain ⟨hn, hd⟩ := index_eq_some _ _ _ hx
  simp only at hn hd
  match d, hd with
  | b0 :: b1 :: rest, _ =>
    rw [parseFlag_pair b0 b1 rest n (by omega)] at h
    simp only [Option.some.injEq] at h
    exact ⟨b0, b1, rest, rfl, h.symm⟩

theorem parseFlag_inRange (b : Slice) (f : Flag) (h : parseFlag b = some f) : f.InRange := by
  obtain ⟨b0, b1, rest, -, rfl⟩ := parseFlag_some b f h
  simp only [Flag.InRange]
  refine ⟨?_, ?_, ?_, ?_, ?_, ?_, ?_⟩ <;> omega

theorem parseHeader_flag (p : Slice) (hd : Header) (n : Nat) (h : parseHeader p = some (hd, n)) :
    (p.slice 2 4).bind parseFlag = some hd.Flag := by
  obtain ⟨-, hcap⟩ := parseHeader_consumed p hd n h
  obtain ⟨d, len⟩ := p
  obtain ⟨b0, b1, b2, b3, b4, b5, b6, b7, b8, b9, b10, b11, rest, rfl⟩ := exists_cons12 d hcap
  rw [parseHeader_cons] at h
  simp only [Option.some.injEq, Prod.mk.injEq] at h
  rw [← h.1]
  simp only [Slice.slice, Slice.cap, List.length_cons]
  simp only [List.drop]
  rw [if_pos (by omega)]
  exact parseFlag_pair _ _ _ _ (le_refl 2)

theorem data_ne_nil {s : String} (h : s ≠ "") : s.data ≠ [] := by
  intro hc
  exact h (String.ext hc)

theorem opString_head (f : Flag) :
    f.OperationCodeString ≠ "" ∧ f.OperationCodeString.data.head? ≠ some (Char.ofNat 10) := by
  unfold Flag.OperationCodeString
  split <;> decide

theorem classString_last (q : Question) :
    q.ClassString ≠ "" ∧ q.ClassString.data.getLast? ≠ some (Char.ofNat 10) := by
  unfold Question.ClassString
  split <;> decide

theorem questionLine_outer (f : Flag) (q : Question) :
    NoOuterNewline (questionLine f.OperationCodeString q) := by
  obtain ⟨h1, h2⟩ := opString_head f
  obtain ⟨h3, h4⟩ := classString_last q
  refine ⟨?_, ?_, ?_⟩
  · exact append_ne_empty _ _ h3
  · simp only [questionLine, String.data_append, List.append_assoc]
    rw [List.head?_append_of_ne_nil _ (data_ne_nil h1)]
    exact h2
  · simp only [questionLine, String.data_append]
    rw [List.getLast?_append_of_ne_nil _ (data_ne_nil h3)]
    exact h4

theorem NoOuterNewline.join {s t : String} (hs : NoOuterNewline s) (ht : NoOuterNewline t) :
    NoOuterNewline (s ++ "\n" ++ t) := by
  refine ⟨append_ne_empty _ _ ht.1, ?_, ?_⟩
  · simp only [String.data_append, List.append_assoc]
    rw [List.head?_append_of_ne_nil _ (data_ne_nil hs.1)]
    exact hs.2.1
  · simp only [String.data_append]
    rw [List.getLast?_append_of_ne_nil _ (data_ne_nil ht.1)]
    exact ht.2.2

theorem intercalate_go_outer (l : List String) (hl : ∀ s ∈ l, NoOuterNewline s) (acc : String)
    (hacc : NoOuterNewline acc) : NoOuterNewline (String.intercalate.go acc "\n" l) := by
  induction l generalizing acc with
  | nil => exact hacc
  | cons s l ih =>
    simp only [String.intercalate.go]
    exact ih (fun x hx => hl x (List.mem_cons_of_mem _ hx)) _
      (hacc.join (hl s (List.mem_cons_self _ _)))

theorem foldl_appendLine (op : String) (qs : List Question) (acc : String) (hacc : acc ≠ "")
    (hline : ∀ q, questionLine op q ≠ "") :
    qs.foldl (DNSMessage.appendLine op) acc
      = String.intercalate.go acc "\n" (qs.map (questionLine op)) := by
  induction qs generalizing acc with
  | nil => rfl
  | cons q qs ih =>
    simp only [List.foldl_cons, List.map_cons, String.intercalate.go]
    have e : DNSMessage.appendLine op acc q = acc ++ "\n" ++ questionLine op q := by
      simp only [DNSMessage.appendLine, questionLine, hacc, if_false]
      rw [String.append_assoc acc]
    rw [e]
    exact ih _ (append_ne_empty _ _ (hline q))

/-! ## The presentation and the flag fields: claims -/

/-- C15: header code mnemonics. `OperationCodeString` returns `QUERY`, `IQUERY`,
`STATUS`, `NOTIFY`, `UPDATE` for the opcodes 0, 1, 2, 4, 5 and one fallback
mnemonic, different from these five, for every other opcode;
`ResponseCodeString` returns that fallback exactly for the codes above 10, and
its names for the codes 0 to 10 are pairwise distinct. -/
theorem header_mnemonics :
    (∀ f : Flag, (f.OperationCode = 0 → f.OperationCodeString = "QUERY") ∧
      (f.OperationCode = 1 → f.OperationCodeString = "IQUERY") ∧
      (f.OperationCode = 2 → f.OperationCodeString = "STATUS") ∧
      (f.OperationCode = 4 → f.OperationCodeString = "NOTIFY") ∧
      (f.OperationCode = 5 → f.OperationCodeString = "UPDATE")) ∧
    ∃ fallback : String,
      (∀ f : Flag, f.OperationCode ∉ [0, 1, 2, 4, 5] → f.OperationCodeString = fallback) ∧
      fallback ∉ ["QUERY", "IQUERY", "STATUS", "NOTIFY", "UPDATE"] ∧
      (∀ f : Flag, f.ResponseCodeString = fallback ↔ 10 < f.ResponseCode) ∧
      (∀ f g : Flag, f.ResponseCode ≤ 10 → g.ResponseCode ≤ 10 →
        f.ResponseCodeString = g.ResponseCodeString → f.ResponseCode = g.ResponseCode) := by
  refine ⟨?_, "UNKOWN", opString_fallback, by decide, ?_, rcString_injective⟩
  · intro f
    obtain ⟨a, b, c, d, e, x, rc⟩ := f
    refine ⟨?_, ?_, ?_, ?_, ?_⟩ <;> (intro h; simp only at h; subst h; rfl)
  · intro f
    constructor
    · intro h
      by_contra hc
      exact rcString_named f (by omega) h
    · exact rcString_fallback f

/-- C16: question code mnemonics. `TypeString` returns the twelve named
mnemonics for the type codes 1, 2, 5, 6, 12, 15, 16, 251, 252, 253, 254, 255
and the fallback mnemonic of the source for every other value; `ClassString`
returns `IN` for 1, `ANY` for 255 and the fallback for every other value. The
fallback is the one `OperationCodeString` returns for the opcode 3. -/
theorem question_mnemonics :
    (∀ q : Question, (q.Type_ = 1 → q.TypeString = "A") ∧ (q.Type_ = 2 → q.TypeString = "NS") ∧
      (q.Type_ = 5 → q.TypeString = "CNAME") ∧ (q.Type_ = 6 → q.TypeString = "SOA") ∧
      (q.Type_ = 12 → q.TypeString = "PTR") ∧ (q.Type_ = 15 → q.TypeString = "MX") ∧
      (q.Type_ = 16 → q.TypeString = "TXT") ∧ (q.Type_ = 251 → q.TypeString = "IXFR") ∧
      (q.Type_ = 252 → q.TypeString = "AXFR") ∧ (q.Type_ = 253 → q.TypeString = "MAILB") ∧
      (q.Type_ = 254 → q.TypeString = "MAILA") ∧ (q.Type_ = 255 → q.TypeString = "*") ∧
      (q.Type_ ∉ [1, 2, 5, 6, 12, 15, 16, 251, 252, 253, 254, 255] →
        q.TypeString = "UNKOWN")) ∧
    (∀ q : Question, (q.Class = 1 → q.ClassString = "IN") ∧
      (q.Class = 255 → q.ClassString = "ANY") ∧
      (q.Class ∉ [1, 255] → q.ClassString = "UNKOWN")) ∧
    (∀ f : Flag, f.OperationCode = 3 → f.OperationCodeString = "UNKOWN") := by
  refine ⟨?_, ?_, ?_⟩
  · intro q
    obtain ⟨nm, t, c⟩ := q
    refine ⟨?_, ?_, ?_, ?_, ?_, ?_, ?_, ?_, ?_, ?_, ?_, ?_, typeString_fallback _⟩ <;>
      (intro h; simp only at h; subst h; rfl)
  · intro q
    obtain ⟨nm, t, c⟩ := q
    refine ⟨?_, ?_, classString_fallback _⟩ <;> (intro h; simp only at h; subst h; rfl)
  · intro f h
    exact opString_fallback f (by rw [h]; decide)

/-- C17: the fallback mnemonic at an unknown opcode, response code, type and
class. The source returns the string `UNKOWN`, which is not `UNKNOWN`. -/
theorem fallback_spelling :
    Flag.OperationCodeString ⟨0, 3, 0, 0, 0, 0, 0⟩ = "UNKOWN" ∧
    Flag.OperationCodeString ⟨0, 3, 0, 0, 0, 0, 0⟩ ≠ "UNKNOWN" ∧
    Flag.ResponseCodeString ⟨0, 0, 0, 0, 0, 0, 11⟩ ≠ "UNKNOWN" ∧
    Question.TypeString ⟨"", 0, 1⟩ ≠ "UNKNOWN" ∧
    Question.ClassString ⟨"", 1, 0⟩ ≠ "UNKNOWN" := by
  decide

/-- C13: for every pair of flag bytes `parseFlag` succeeds, and every flag it
returns has the five one-bit fields at most 1 and the operation code and the
response code at most 15; the same holds for the flag of the header of every
message that `Parse` returns. -/
theorem flag_fields_inRange :
    (∀ b0 b1 : Nat, ∀ rest : List Nat,
      ∃ f, parseFlag ⟨b0 :: b1 :: rest, 2⟩ = some f ∧ f.InRange) ∧
    (∀ (b : Slice) (f : Flag), parseFlag b = some f → f.InRange) ∧
    (∀ (p : Slice) (m : DNSMessage), Parse p = some m → m.Header.Flag.InRange) := by
  refine ⟨?_, parseFlag_inRange, ?_⟩
  · intro b0 b1 rest
    exact ⟨_, parseFlag_pair b0 b1 rest 2 (le_refl 2),
      parseFlag_inRange _ _ (parseFlag_pair b0 b1 rest 2 (le_refl 2))⟩
  · intro p m hm
    obtain ⟨hh, -, -⟩ := Parse_some p m hm
    have := parseHeader_flag p m.Header 12 hh
    cases hs : p.slice 2 4 with
    | none => rw [hs] at this; exact absurd this (by simp)
    | some s =>
      rw [hs] at this
      exact parseFlag_inRange s _ this

/-- C11: for a message whose query/response flag is 0, `String` is the lines of
its questions joined by a single newline, where the line of `q` is the opcode
mnemonic, `:<tab>`, the name, a tab, the type mnemonic, a tab and the class
mnemonic; it is empty for no question, and it neither begins nor ends with a
newline. -/
theorem String_lines (m : DNSMessage) (h : m.Header.Flag.QueryResponseFlag = 0) :
    m.String
      = "\n".intercalate (m.Questions.map (questionLine m.Header.Flag.OperationCodeString)) ∧
    (m.Questions = [] → m.String = "") ∧
    m.String.data.head? ≠ some (Char.ofNat 10) ∧
    m.String.data.getLast? ≠ some (Char.ofNat 10) := by
  have hline : ∀ q, questionLine m.Header.Flag.OperationCodeString q ≠ "" :=
    fun q => (questionLine_outer m.Header.Flag q).1
  have heq : m.String
      = "\n".intercalate (m.Questions.map (questionLine m.Header.Flag.OperationCodeString)) := by
    simp only [DNSMessage.String, h, ne_eq, not_true_eq_false, if_false]
    cases hq : m.Questions with
    | nil => rfl
    | cons q qs =>
      simp only [List.foldl_cons, List.map_cons, String.intercalate]
      have e : DNSMessage.appendLine m.Header.Flag.OperationCodeString "" q
          = questionLine m.Header.Flag.OperationCodeString q := by
        simp [DNSMessage.appendLine, questionLine]
      rw [e]
      exact foldl_appendLine _ qs _ (hline q) hline
  refine ⟨heq, ?_, ?_⟩
  · intro hnil
    rw [heq, hnil]
    rfl
  · rw [heq]
    cases hq : m.Questions with
    | nil =>
      simp only [List.map_nil, String.intercalate]
      exact ⟨by decide, by decide⟩
    | cons q qs =>
      simp only [List.map_cons, String.intercalate]
      have := intercalate_go_outer (qs.map (questionLine m.Header.Flag.OperationCodeString))
        (by
          intro s hs
          obtain ⟨q1, -, rfl⟩ := List.mem_map.1 hs
          exact questionLine_outer _ q1)
        _ (questionLine_outer m.Header.Flag q)
      exact this.2

theorem String_lines_witness :
    (⟨⟨7, ⟨0, 5, 0, 0, 1, 0, 0⟩, 2, 0, 0, 0⟩, [⟨"", 1, 1⟩, ⟨"a.b", 16, 255⟩]⟩ : DNSMessage).Header.Flag.QueryResponseFlag = 0 ∧
    ((⟨⟨7, ⟨0, 5, 0, 0, 1, 0, 0⟩, 2, 0, 0, 0⟩, [⟨"", 1, 1⟩, ⟨"a.b", 16, 255⟩]⟩ : DNSMessage).String
      = "UPDATE:\t\tA\tIN\nUPDATE:\ta.b\tTXT\tANY") :=
  ⟨rfl, (String_lines ⟨⟨7, ⟨0, 5, 0, 0, 1, 0, 0⟩, 2, 0, 0, 0⟩, [⟨"", 1, 1⟩, ⟨"a.b", 16, 255⟩]⟩ rfl).1.trans (by decide)⟩

/-! ## Lemmas on non-interference, names, trailing bytes and termination -/

theorem Parse_loop_congr (p p1 : Slice) (n : Nat) (h : p.sliceFrom n = p1.sliceFrom n)
    (k i : Nat) (qs : List Question) :
    Parse.loop k i p n qs = Parse.loop k i p1 n qs := by
  cases k with
  | zero => rfl
  | succ k => rw [Parse_loop_succ, Parse_loop_succ, h]

theorem sliceFrom_append (pre pre1 rest : List Nat) (n : Nat) (h : pre.length = pre1.length) :
    Slice.sliceFrom ⟨pre ++ rest, n⟩ pre.length = Slice.sliceFrom ⟨pre1 ++ rest, n⟩ pre.length := by
  simp only [Slice.sliceFrom, Slice.slice, Slice.cap, List.length_append]
  rw [List.drop_left' rfl, h, List.drop_left' rfl]

/-- Two packets that agree from index 12 on, with headers of the same question
count, decode to the same questions. -/
theorem Parse_congr (pre pre1 rest : List Nat) (n : Nat) (hd hd1 : Header)
    (hpre : pre.length = 12) (hpre1 : pre1.length = 12)
    (hh : parseHeader ⟨pre ++ rest, n⟩ = some (hd, 12))
    (hh1 : parseHeader ⟨pre1 ++ rest, n⟩ = some (hd1, 12))
    (hc : hd.QuestionCount = hd1.QuestionCount) :
    Parse ⟨pre1 ++ rest, n⟩
      = (Parse ⟨pre ++ rest, n⟩).map fun m => ⟨hd1, m.Questions⟩ := by
  rw [Parse_eq _ hd 12 hh, Parse_eq _ hd1 12 hh1, ← hc]
  have hs := sliceFrom_append pre pre1 rest n (by omega)
  rw [hpre] at hs
  rw [Parse_loop_congr _ _ 12 hs]
  cases Parse.loop hd.QuestionCount 0 ⟨pre1 ++ rest, n⟩ 12
    (List.replicate hd.QuestionCount default) <;> rfl

theorem String_congr (m m1 : DNSMessage) (hf : m.Header.Flag = m1.Header.Flag)
    (hq : m.Questions = m1.Questions) : m.String = m1.String := by
  simp only [DNSMessage.String, hf, hq]

theorem exists_cons6 (l : List Nat) (h : l.length = 6) :
    ∃ a b c d e f, l = [a, b, c, d, e, f] := by
  match l, h with
  | [a, b, c, d, e, f], _ => exact ⟨a, b, c, d, e, f, rfl⟩

theorem String_of_response (m : DNSMessage) (h : m.Header.Flag.QueryResponseFlag ≠ 0) :
    m.String = "DNS Response message currently not supported" := by
  simp only [DNSMessage.String, h, ne_eq, not_false_eq_true, if_true]

theorem char_ofNat_toNat (x : Nat) (h : x.isValidChar) : (Char.ofNat x).toNat = x := by
  simp [Char.ofNat, h, Char.ofNatAux, Char.toNat, UInt32.toNat]

theorem char_ofNat_eq_dot (x : Nat) (h : Char.ofNat x = '.') : x = 46 := by
  by_cases hv : x.isValidChar
  · have := congrArg Char.toNat h
    rw [char_ofNat_toNat x hv] at this
    exact this
  · have : Char.ofNat x = Char.ofNat 0 := by
      rw [Char.ofNat, dif_neg hv]
      rfl
    rw [this] at h
    exact absurd h (by decide)

theorem appendLabel_data (acc : String) (l : List Nat) :
    ∃ pre, (appendLabel acc l).data = pre ++ l.map Char.ofNat ∧
      (acc ≠ "" → ∃ post, (appendLabel acc l).data = acc.data ++ post) ∧
      (acc = "" → pre = []) := by
  by_cases h : acc = ""
  · subst h
    exact ⟨[], by simp [appendLabel, bytesToString], fun hc => absurd rfl hc, fun _ => rfl⟩
  · refine ⟨acc.data ++ ['.'], ?_, fun _ => ⟨'.' :: l.map Char.ofNat, ?_⟩, fun hc => absurd hc h⟩
    · simp only [appendLabel, h, ne_eq, not_false_eq_true, if_true, String.data_append,
        bytesToString]
    · simp only [appendLabel, h, ne_eq, not_false_eq_true, if_true, String.data_append,
        bytesToString, List.append_assoc]
      rfl

theorem foldl_appendLabel_head (ls : List (List Nat)) (hls : ∀ l ∈ ls, l ≠ []) (acc : String)
    (hacc : acc ≠ "") : (ls.foldl appendLabel acc).data.head? = acc.data.head? := by
  induction ls generalizing acc with
  | nil => rfl
  | cons l ls ih =>
    simp only [List.foldl_cons]
    rw [ih (fun x hx => hls x (List.mem_cons_of_mem _ hx)) _
      (appendLabel_ne_empty _ _ (hls l (List.mem_cons_self _ _)))]
    obtain ⟨-, -, hpost, -⟩ := appendLabel_data acc l
    obtain ⟨post, hp⟩ := hpost hacc
    rw [hp, List.head?_append_of_ne_nil _ (data_ne_nil hacc)]

theorem foldl_appendLabel_last (ls : List (List Nat)) (hls : ∀ l ∈ ls, l ≠ []) (hne : ls ≠ [])
    (acc : String) :
    (ls.foldl appendLabel acc).data.getLast?
      = (ls.getLast?.bind List.getLast?).map Char.ofNat := by
  induction ls generalizing acc with
  | nil => exact absurd rfl hne
  | cons l ls ih =>
    cases ls with
    | nil =>
      simp only [List.foldl_cons, List.foldl_nil, List.getLast?_singleton, Option.some_bind]
      obtain ⟨pre, hpre, -, -⟩ := appendLabel_data acc l
      rw [hpre, List.getLast?_append_of_ne_nil _ (by simpa using hls l (List.mem_cons_self _ _)),
        List.getLast?_map]
    | cons l2 rest =>
      simp only [List.foldl_cons, List.getLast?_cons_cons]
      have := ih (fun x hx => hls x (List.mem_cons_of_mem _ hx)) (by simp) (appendLabel acc l)
      simp only [List.foldl_cons] at this
      exact this

/-- The first and the last character of the name of a list of non-empty
labels. -/
theorem joinLabels_ends (ls : List (List Nat)) (hls : ∀ l ∈ ls, l ≠ []) :
    (joinLabels ls = "" ↔ ls = []) ∧
    (joinLabels ls).data.head? = (ls.head?.bind List.head?).map Char.ofNat ∧
    (joinLabels ls).data.getLast? = (ls.getLast?.bind List.getLast?).map Char.ofNat := by
  rw [← foldl_appendLabel_empty ls hls]
  cases ls with
  | nil => exact ⟨by simp, rfl, rfl⟩
  | cons l ls =>
    have hl : l ≠ [] := hls l (List.mem_cons_self _ _)
    have hne : appendLabel "" l ≠ "" := appendLabel_ne_empty _ _ hl
    refine ⟨?_, ?_, foldl_appendLabel_last (l :: ls) hls (by simp) ""⟩
    · constructor
      · intro h
        have h1 := foldl_appendLabel_head ls (fun x hx => hls x (List.mem_cons_of_mem _ hx)) _ hne
        simp only [List.foldl_cons] at h
        rw [h] at h1
        have : (appendLabel "" l).data ≠ [] := data_ne_nil hne
        cases hd : (appendLabel "" l).data with
        | nil => exact absurd hd this
        | cons c cs => rw [hd] at h1; exact absurd h1 (by simp)
      · intro h
        exact absurd h (by simp)
    · simp only [List.foldl_cons, List.head?_cons, Option.some_bind]
      rw [foldl_appendLabel_head ls (fun x hx => hls x (List.mem_cons_of_mem _ hx)) _ hne]
      obtain ⟨pre, hpre, -, hnil⟩ := appendLabel_data "" l
      rw [hpre, hnil rfl, List.nil_append, List.head?_map]

theorem option_map_ofNat_dot (o : Option Nat) :
    o.map Char.ofNat = some '.' ↔ o = some 46 := by
  cases o with
  | none => simp
  | some x =>
    simp only [Option.map_some', Option.some.injEq]
    constructor
    · exact char_ofNat_eq_dot x
    · intro h
      subst h
      rfl

theorem parseQuestion_dot_label :
    parseQuestion (Slice.ofBytes [1, 46, 0, 0, 1, 0, 1]) = some (⟨".", 1, 1⟩, 7) := by
  have h := parseQuestion_encode [[46]] (by decide) 0 1 0 1 [] 7 (by decide)
  exact h.trans (by decide)

theorem parseQuestion_append (l r : List Nat) (q : Question) (n : Nat)
    (h : parseQuestion (Slice.ofBytes l) = some (q, n)) :
    parseQuestion (Slice.ofBytes (l ++ r)) = some (q, n) ∧ 5 ≤ n ∧ n ≤ l.length := by
  obtain ⟨ls, t0, t1, c0, c1, r0, hls, hdata, -, hn, hq⟩ := parseQuestion_some _ q n h
  simp only [Slice.ofBytes] at hdata
  subst hdata
  refine ⟨?_, by omega, by simp; omega⟩
  have := parseQuestion_encode ls (fun l hl => (hls l hl).1) t0 t1 c0 c1 (r0 ++ r)
    ((encodeLabels ls ++ 0 :: t0 :: t1 :: c0 :: c1 :: r0) ++ r).length (by simp)
  rw [hn, hq]
  simp only [Slice.ofBytes, List.append_assoc, List.cons_append] at this ⊢
  exact this

theorem sliceFrom_ofBytes (d : List Nat) (n : Nat) (s : Slice)
    (h : (Slice.ofBytes d).sliceFrom n = some s) :
    n ≤ d.length ∧ s = Slice.ofBytes (d.drop n) := by
  simp only [Slice.sliceFrom, Slice.slice, Slice.ofBytes, Slice.cap] at h
  by_cases hn : n ≤ d.length
  · rw [if_pos ⟨hn, le_refl _⟩] at h
    simp only [Option.some.injEq] at h
    refine ⟨hn, ?_⟩
    rw [← h]
    simp [Slice.ofBytes]
  · rw [if_neg (by omega)] at h
    exact absurd h (by simp)

theorem sliceFrom_ofBytes_append (d r : List Nat) (n : Nat) (hn : n ≤ d.length) :
    (Slice.ofBytes (d ++ r)).sliceFrom n = some (Slice.ofBytes (d.drop n ++ r)) := by
  simp only [Slice.sliceFrom, Slice.slice, Slice.ofBytes, Slice.cap, List.length_append]
  rw [if_pos ⟨by omega, le_refl _⟩]
  simp only [Option.some.injEq, Slice.mk.injEq, List.length_append, List.length_drop]
  refine ⟨List.drop_append_of_le_length hn, by omega⟩

theorem Parse_loop_append (r : List Nat) (k : Nat) : ∀ (i : Nat) (d : List Nat) (n : Nat)
    (qs out : List Question), Parse.loop k i (Slice.ofBytes d) n qs = some out →
    Parse.loop k i (Slice.ofBytes (d ++ r)) n qs = some out := by
  induction k with
  | zero =>
    intro i d n qs out h
    exact h
  | succ k ih =>
    intro i d n qs out h
    rw [Parse_loop_succ] at h ⊢
    cases hs : (Slice.ofBytes d).sliceFrom n with
    | none => rw [hs] at h; exact absurd h (by simp)
    | some s =>
      rw [hs] at h
      obtain ⟨hn, rfl⟩ := sliceFrom_ofBytes d n s hs
      rw [sliceFrom_ofBytes_append d r n hn]
      simp only [Option.some_bind] at h ⊢
      cases hq : parseQuestion (Slice.ofBytes (d.drop n)) with
      | none => rw [hq] at h; exact absurd h (by simp)
      | some res =>
        obtain ⟨q, m⟩ := res
        rw [hq] at h
        rw [(parseQuestion_append (d.drop n) r q m hq).1]
        simp only [Option.some_bind] at h ⊢
        exact ih _ _ _ _ _ h

theorem parseHeader_append (l r : List Nat) (hd : Header) (n : Nat)
    (h : parseHeader (Slice.ofBytes l) = some (hd, n)) :
    parseHeader (Slice.ofBytes (l ++ r)) = some (hd, n) := by
  obtain ⟨-, hcap⟩ := parseHeader_consumed _ hd n h
  obtain ⟨b0, b1, b2, b3, b4, b5, b6, b7, b8, b9, b10, b11, rest, rfl⟩ := exists_cons12 l hcap
  simp only [Slice.ofBytes, List.cons_append] at h ⊢
  rw [parseHeader_cons] at h ⊢
  exact h

theorem run_eq_loop (b : Slice) (fuel : Nat) : ∀ (i : Nat) (name : String),
    b.len - i ≤ fuel → parseQuestion.run b fuel i name = some (parseQuestion.loop b i name) := by
  induction fuel with
  | zero =>
    intro i name h
    have hidx : b.index i = none := by
      simp only [Slice.index]
      rw [if_neg (by omega)]
    rw [loop_none b i name hidx]
    simp only [parseQuestion.run, hidx]
  | succ fuel ih =>
    intro i name h
    cases hidx : b.index i with
    | none =>
      rw [loop_none b i name hidx]
      simp only [parseQuestion.run, hidx]
    | some length =>
      obtain ⟨hi, -⟩ := index_eq_some b i length hidx
      by_cases hz : length = 0
      · subst hz
        rw [loop_zero b i name hidx]
        simp only [parseQuestion.run, hidx, if_true]
      · rw [loop_label b i name length hidx hz]
        simp only [parseQuestion.run, hidx, hz, if_false]
        cases hs : b.slice (i + 1) (i + 1 + length) with
        | none => rfl
        | some label =>
          simp only [Option.some_bind]
          exact ih _ _ (by omega)

theorem loop_end (b : Slice) (i : Nat) (name nm : String) (j : Nat)
    (h : parseQuestion.loop b i name = some (nm, j)) :
    i < j ∧ j ≤ b.len ∧ b.index (j - 1) = some 0 := by
  obtain ⟨ls, tail, -, hdrop, hj, hjl, -⟩ := loop_some b b.len i name nm j (by omega) h
  refine ⟨by omega, hjl, ?_⟩
  have hjj : j - 1 = i + (encodeLabels ls).length := by omega
  rw [hjj]
  simp only [Slice.index]
  rw [if_pos (by omega)]
  have : b.data[i + (encodeLabels ls).length]? = (b.data.drop i)[(encodeLabels ls).length]? := by
    rw [List.getElem?_drop]
  rw [this, hdrop]
  rw [List.getElem?_append_right (le_refl _)]
  simp

theorem sliceFrom_len (p s : Slice) (c : Nat) (h : p.sliceFrom c = some s) : s.len ≤ p.len := by
  simp only [Slice.sliceFrom, Slice.slice] at h
  by_cases hc : c ≤ p.len ∧ p.len ≤ p.cap
  · rw [if_pos hc] at h
    simp only [Option.some.injEq] at h
    rw [← h]
    simp
  · rw [if_neg hc] at h
    exact absurd h (by simp)

theorem parseHeader_count_le (p : Slice) (hwf : p.WF) (hd : Header) (n : Nat)
    (h : parseHeader p = some (hd, n)) : hd.QuestionCount ≤ 65535 := by
  obtain ⟨-, hcap⟩ := parseHeader_consumed p hd n h
  obtain ⟨d, len⟩ := p
  obtain ⟨b0, b1, b2, b3, b4, b5, b6, b7, b8, b9, b10, b11, rest, rfl⟩ := exists_cons12 d hcap
  rw [parseHeader_cons] at h
  simp only [Option.some.injEq, Prod.mk.injEq] at h
  have hb := hwf.2
  simp only [List.mem_cons, forall_eq_or_imp] at hb
  obtain ⟨-, -, -, -, h4, h5, -⟩ := hb
  rw [← h.1]
  simp only
  rw [word_of_bytes b4 b5 h4 h5]
  omega

/-! ## Non-interference, names, trailing bytes and termination: claims -/

/-- Two slices of the same length over backing arrays that differ only at the
indices 6 to 11 are both decoded or both refused by `Parse`, and when they are
decoded the two messages differ at most in the three record counts. The
backing arrays agree behind the length of the slices as well. -/
theorem Parse_record_counts_congr (pre a a1 rest : List Nat) (n : Nat)
    (hpre : pre.length = 6) (ha : a.length = 6) (ha1 : a1.length = 6) :
    ((Parse ⟨pre ++ a ++ rest, n⟩).isSome ↔ (Parse ⟨pre ++ a1 ++ rest, n⟩).isSome) ∧
    ∀ m m1, Parse ⟨pre ++ a ++ rest, n⟩ = some m → Parse ⟨pre ++ a1 ++ rest, n⟩ = some m1 →
      m.Questions = m1.Questions ∧ m.Header.Identifer = m1.Header.Identifer ∧
      m.Header.Flag = m1.Header.Flag ∧ m.Header.QuestionCount = m1.Header.QuestionCount ∧
      m.String = m1.String := by
  obtain ⟨b0, b1, b2, b3, b4, b5, rfl⟩ := exists_cons6 pre hpre
  obtain ⟨x0, x1, x2, x3, x4, x5, rfl⟩ := exists_cons6 a ha
  obtain ⟨y0, y1, y2, y3, y4, y5, rfl⟩ := exists_cons6 a1 ha1
  have hh := parseHeader_cons b0 b1 b2 b3 b4 b5 x0 x1 x2 x3 x4 x5 rest n
  have hh1 := parseHeader_cons b0 b1 b2 b3 b4 b5 y0 y1 y2 y3 y4 y5 rest n
  have key := Parse_congr ([b0, b1, b2, b3, b4, b5] ++ [x0, x1, x2, x3, x4, x5])
    ([b0, b1, b2, b3, b4, b5] ++ [y0, y1, y2, y3, y4, y5]) rest n _ _ rfl rfl hh hh1 rfl
  rw [key]
  constructor
  · cases Parse ⟨[b0, b1, b2, b3, b4, b5] ++ [x0, x1, x2, x3, x4, x5] ++ rest, n⟩ <;> simp
  · intro m m1 hm hm1
    rw [hm] at hm1
    simp only [Option.map_some', Option.some.injEq] at hm1
    subst hm1
    obtain ⟨hmh, -, -⟩ := Parse_some _ m hm
    replace hmh := hh.symm.trans hmh
    simp only [Option.some.injEq, Prod.mk.injEq, and_true] at hmh
    have hflag : m.Header.Flag = (⟨((b0 * 2 ^ 8) % 65536) ||| b1,
          ⟨b2 / 128 % 2, b2 / 8 % 16, b2 / 4 % 2, b2 / 2 % 2, b2 % 2, b3 / 128 % 2, b3 % 16⟩,
          ((b4 * 2 ^ 8) % 65536) ||| b5, ((y0 * 2 ^ 8) % 65536) ||| y1,
          ((y2 * 2 ^ 8) % 65536) ||| y3, ((y4 * 2 ^ 8) % 65536) ||| y5⟩ : Header).Flag := by
      rw [← hmh]
    refine ⟨rfl, ?_, hflag, ?_, String_congr _ _ hflag rfl⟩
    · rw [← hmh]
    · rw [← hmh]

/-- C12: a message whose query/response flag is not 0 renders as the fixed
sentence, whatever its opcode and its questions. This is so for the message
that `Parse` returns on a packet whose byte at index 2 is at least 128, and
`Parse` does not refuse a packet for its byte at index 2: changing that byte
keeps the decoding successful, with the same questions. -/
theorem String_response (p : Slice) (hwf : p.WF) :
    (∀ m : DNSMessage, m.Header.Flag.QueryResponseFlag ≠ 0 →
      m.String = "DNS Response message currently not supported") ∧
    (∀ m, Parse p = some m → 128 ≤ p.byteAt 2 →
      m.String = "DNS Response message currently not supported") ∧
    (∀ x m, Parse p = some m →
      ∃ m1, Parse ⟨p.data.set 2 x, p.len⟩ = some m1 ∧ m1.Questions = m.Questions) := by
  refine ⟨String_of_response, ?_, ?_⟩
  · intro m hm h2
    apply String_of_response
    obtain ⟨hh, -, -⟩ := Parse_some p m hm
    obtain ⟨-, hcap⟩ := parseHeader_consumed p _ _ hh
    obtain ⟨d, len⟩ := p
    obtain ⟨b0, b1, b2, b3, b4, b5, b6, b7, b8, b9, b10, b11, rest, rfl⟩ := exists_cons12 d hcap
    rw [parseHeader_cons] at hh
    simp only [Option.some.injEq, Prod.mk.injEq, and_true] at hh
    rw [← hh]
    simp only
    have hb2 : b2 < 256 := hwf.2 b2 (by simp)
    have hidx : Slice.byteAt ⟨b0 :: b1 :: b2 :: b3 :: b4 :: b5 :: b6 :: b7 :: b8 :: b9 :: b10
        :: b11 :: rest, len⟩ 2 = b2 ∨ Slice.byteAt ⟨b0 :: b1 :: b2 :: b3 :: b4 :: b5 :: b6 :: b7
        :: b8 :: b9 :: b10 :: b11 :: rest, len⟩ 2 = 0 := by
      by_cases hl : 2 < len
      · exact Or.inl (byteAt_mk _ _ 2 b2 hl (by simp))
      · exact Or.inr (byteAt_mk_ge _ _ _ (by omega))
    rcases hidx with e | e
    · rw [e] at h2
      omega
    · rw [e] at h2
      omega
  · intro x m hm
    obtain ⟨hh, -, -⟩ := Parse_some p m hm
    obtain ⟨-, hcap⟩ := parseHeader_consumed p _ _ hh
    obtain ⟨d, len⟩ := p
    obtain ⟨b0, b1, b2, b3, b4, b5, b6, b7, b8, b9, b10, b11, rest, rfl⟩ := exists_cons12 d hcap
    have hc0 := (parseHeader_cons b0 b1 b2 b3 b4 b5 b6 b7 b8 b9 b10 b11 rest len).symm.trans hh
    simp only [Option.some.injEq, Prod.mk.injEq, and_true] at hc0
    obtain ⟨hd1, hh1⟩ : ∃ hd1 : Header, parseHeader ⟨b0 :: b1 :: x :: b3 :: b4 :: b5 :: b6 :: b7
        :: b8 :: b9 :: b10 :: b11 :: rest, len⟩ = some (hd1, 12)
        ∧ hd1.QuestionCount = m.Header.QuestionCount :=
      ⟨_, parseHeader_cons b0 b1 x b3 b4 b5 b6 b7 b8 b9 b10 b11 rest len, by rw [← hc0]⟩
    have key := Parse_congr [b0, b1, b2, b3, b4, b5, b6, b7, b8, b9, b10, b11]
      [b0, b1, x, b3, b4, b5, b6, b7, b8, b9, b10, b11] rest len _ _ rfl rfl hh hh1.1 hh1.2.symm
    have hm1 : Parse ⟨[b0, b1, b2, b3, b4, b5, b6, b7, b8, b9, b10, b11] ++ rest, len⟩ = some m :=
      hm
    rw [hm1] at key
    exact ⟨⟨hd1, m.Questions⟩, key, rfl⟩

/-- C14, counterexample: on the buffer `01 2E 00 00 01 00 01`, whose single label
is the byte `.`, `parseQuestion` succeeds with a name that is not empty and
that begins and ends with a dot. -/
theorem name_dot_counterexample :
    ∃ q n, parseQuestion (Slice.ofBytes [1, 46, 0, 0, 1, 0, 1]) = some (q, n) ∧
      ¬ (q.Name = "" ∨
        (q.Name.data.head? ≠ some '.' ∧ q.Name.data.getLast? ≠ some '.')) :=
  ⟨⟨".", 1, 1⟩, 7, parseQuestion_dot_label, by decide⟩

/-- C14, amended: the name that `parseQuestion` returns is the decoded labels
joined by single dots. It is empty exactly when there is no label, its first
byte is a dot exactly when the first label begins with the byte 46, and its
last byte is a dot exactly when the last label ends with the byte 46; the
decoder adds no dot of its own at either end. -/
theorem name_ends (b : Slice) (q : Question) (n : Nat) (h : parseQuestion b = some (q, n)) :
    ∃ ls tail, (∀ l ∈ ls, l ≠ []) ∧ b.data = encodeLabels ls ++ 0 :: tail ∧
      q.Name = joinLabels ls ∧ (q.Name = "" ↔ ls = []) ∧
      (q.Name.data.head? = some '.' ↔ ls.head?.bind List.head? = some 46) ∧
      (q.Name.data.getLast? = some '.' ↔ ls.getLast?.bind List.getLast? = some 46) := by
  obtain ⟨ls, t0, t1, c0, c1, r, hls, hdata, -, -, hq⟩ := parseQuestion_some b q n h
  have hne : ∀ l ∈ ls, l ≠ [] := fun l hl => (hls l hl).1
  obtain ⟨h1, h2, h3⟩ := joinLabels_ends ls hne
  have hname : q.Name = joinLabels ls := by rw [hq]
  refine ⟨ls, t0 :: t1 :: c0 :: c1 :: r, hne, hdata, hname, ?_, ?_, ?_⟩
  · rw [hname]; exact h1
  · rw [hname, h2]; exact option_map_ofNat_dot _
  · rw [hname, h3]; exact option_map_ofNat_dot _

theorem name_ends_witness :
    parseQuestion (Slice.ofBytes [3, 99, 111, 109, 0, 0, 1, 0, 1]) = some (⟨"com", 1, 1⟩, 9) ∧
    ∃ ls tail, (∀ l ∈ ls, l ≠ []) ∧
      (Slice.ofBytes [3, 99, 111, 109, 0, 0, 1, 0, 1]).data = encodeLabels ls ++ 0 :: tail ∧
      (⟨"com", 1, 1⟩ : Question).Name = joinLabels ls ∧
      ((⟨"com", 1, 1⟩ : Question).Name = "" ↔ ls = []) ∧
      ((⟨"com", 1, 1⟩ : Question).Name.data.head? = some '.'
        ↔ ls.head?.bind List.head? = some 46) ∧
      ((⟨"com", 1, 1⟩ : Question).Name.data.getLast? = some '.'
        ↔ ls.getLast?.bind List.getLast? = some 46) :=
  ⟨(parseQuestion_encode [[99, 111, 109]] (by decide) 0 1 0 1 [] 9 (by decide)).trans
      (by decide),
    name_ends (Slice.ofBytes [3, 99, 111, 109, 0, 0, 1, 0, 1]) ⟨"com", 1, 1⟩ 9
      ((parseQuestion_encode [[99, 111, 109]] (by decide) 0 1 0 1 [] 9 (by decide)).trans
        (by decide))⟩

/-- C20, counterexample: on a slice of length 1 and capacity 5 that shows the
byte 0 and hides `00 01 00 01` behind it, `parseQuestion` succeeds with the
consumed length 5, above the length of the slice, and with type and class read
from the hidden bytes; on the shown byte followed by `09 09 09 09` the result
is another one. -/
theorem spare_capacity_counterexample :
    (Slice.withCap [0] [0, 1, 0, 1]).bytes = [0] ∧
    parseQuestion (Slice.withCap [0] [0, 1, 0, 1]) = some (⟨"", 1, 1⟩, 5) ∧
    ¬ (5 ≤ (Slice.withCap [0] [0, 1, 0, 1]).len) ∧
    parseQuestion (Slice.ofBytes ([0] ++ [9, 9, 9, 9])) ≠ some (⟨"", 1, 1⟩, 5) := by
  have h1 := parseQuestion_encode [] (by decide) 0 1 0 1 [] 1 (by decide)
  have h2 := parseQuestion_encode [] (by decide) 9 9 9 9 [] 5 (by decide)
  refine ⟨by decide, h1.trans (by decide), by decide, ?_⟩
  intro hc
  have h3 := h2.symm.trans hc
  exact absurd h3 (by decide)

/-- C20, amended: for a buffer whose capacity equals its length, trailing bytes
are ignored. When `Parse` succeeds on `l` it returns the same message on
`l ++ r`, and when `parseQuestion` succeeds on `l` it returns the same
question and consumed length `n` on `l ++ r`, with `5 ≤ n ≤ len l`. -/
theorem trailing_bytes_ignored (l r : List Nat) :
    (∀ m, Parse (Slice.ofBytes l) = some m → Parse (Slice.ofBytes (l ++ r)) = some m) ∧
    (∀ q n, parseQuestion (Slice.ofBytes l) = some (q, n) →
      parseQuestion (Slice.ofBytes (l ++ r)) = some (q, n) ∧ 5 ≤ n ∧ n ≤ l.length) := by
  refine ⟨?_, fun q n h => parseQuestion_append l r q n h⟩
  intro m hm
  obtain ⟨hh, -, -⟩ := Parse_some _ m hm
  have hh1 := parseHeader_append l r _ _ hh
  rw [Parse_eq _ _ _ hh] at hm
  rw [Parse_eq _ _ _ hh1]
  cases hl : Parse.loop m.Header.QuestionCount 0 (Slice.ofBytes l) 12
      (List.replicate m.Header.QuestionCount default) with
  | none => rw [hl] at hm; exact absurd hm (by simp)
  | some out =>
    rw [hl] at hm
    rw [Parse_loop_append r _ _ _ _ _ _ hl]
    exact hm

/-- C19: the label loop of `parseQuestion` ends on every slice. With a bound of
`len b - i` iterations from the cursor `i` the bounded loop returns the result
of the loop; an iteration that goes on moves the cursor from `i` to
`i + 1 + length`; a result of the loop has its cursor within the slice, just
behind a zero length byte. The question count of a header is at most 65535,
and the bound `len p` suffices for the label loop on every `p[c:]`. -/
theorem parse_terminates (p : Slice) (hwf : p.WF) :
    (∀ (b : Slice) (fuel i : Nat) (name : String), b.len - i ≤ fuel →
      parseQuestion.run b fuel i name = some (parseQuestion.loop b i name)) ∧
    (∀ (b : Slice) (i length : Nat) (name : String), b.index i = some length → length ≠ 0 →
      i < i + 1 + length ∧
      parseQuestion.loop b i name =
        (b.slice (i + 1) (i + 1 + length)).bind fun label =>
          parseQuestion.loop b (i + 1 + length)
            ((if name ≠ "" then name ++ "." else name) ++ bytesToString label.bytes)) ∧
    (∀ (b : Slice) (i j : Nat) (name nm : String), parseQuestion.loop b i name = some (nm, j) →
      i < j ∧ j ≤ b.len ∧ b.index (j - 1) = some 0) ∧
    (∀ hd n, parseHeader p = some (hd, n) → hd.QuestionCount ≤ 65535) ∧
    (∀ c s, p.sliceFrom c = some s →
      parseQuestion.run s p.len 0 "" = some (parseQuestion.loop s 0 "")) := by
  refine ⟨fun b fuel i name h => run_eq_loop b fuel i name h, ?_, ?_, ?_, ?_⟩
  · intro b i length name hidx hz
    exact ⟨by omega, loop_label b i name length hidx hz⟩
  · intro b i j name nm h
    exact loop_end b i name nm j h
  · intro hd n h
    exact parseHeader_count_le p hwf hd n h
  · intro c s hs
    exact run_eq_loop s p.len 0 "" (by have := sliceFrom_len p s c hs; omega)

/-! ## Instances of the claims on responses and termination -/

theorem String_response_witness :
    (Slice.ofBytes responsePacket).WF ∧
    ((∀ m : DNSMessage, m.Header.Flag.QueryResponseFlag ≠ 0 →
      m.String = "DNS Response message currently not supported") ∧
    (∀ m, Parse (Slice.ofBytes responsePacket) = some m →
      128 ≤ (Slice.ofBytes responsePacket).byteAt 2 →
      m.String = "DNS Response message currently not supported") ∧
    (∀ x m, Parse (Slice.ofBytes responsePacket) = some m →
      ∃ m1, Parse ⟨(Slice.ofBytes responsePacket).data.set 2 x,
          (Slice.ofBytes responsePacket).len⟩ = some m1 ∧ m1.Questions = m.Questions)) :=
  ⟨by decide, String_response (Slice.ofBytes responsePacket) (by decide)⟩

theorem parse_terminates_witness :
    (Slice.ofBytes examplePacket).WF ∧
    parseQuestion.run (Slice.ofBytes (examplePacket.drop 12)) (Slice.ofBytes examplePacket).len
        0 ""
      = some (parseQuestion.loop (Slice.ofBytes (examplePacket.drop 12)) 0 "") ∧
    parseQuestion.loop (Slice.ofBytes (examplePacket.drop 12)) 0 "" = some ("example.com", 13) :=
  ⟨by decide,
    (parse_terminates (Slice.ofBytes examplePacket) (by decide)).2.2.2.2 12 _ (by decide),
    Option.some.inj (((parse_terminates (Slice.ofBytes examplePacket)
      (by decide)).2.2.2.2 12 _ (by decide)).symm.trans (by decide))⟩

/-! ## Lemmas on the record counts -/

theorem Parse_rootQuestion (hdr : List Nat) (hd : Header) (t0 t1 c0 c1 : Nat)
    (hlen : hdr.length = 12)
    (hh : parseHeader (Slice.withCap (hdr ++ [0]) [t0, t1, c0, c1]) = some (hd, 12))
    (hc : hd.QuestionCount = 1) :
    Parse (Slice.withCap (hdr ++ [0]) [t0, t1, c0, c1])
      = some ⟨hd, [⟨"", ((t0 * 2 ^ 8) % 65536) ||| t1, ((c0 * 2 ^ 8) % 65536) ||| c1⟩]⟩ := by
  have hs : (Slice.withCap (hdr ++ [0]) [t0, t1, c0, c1]).sliceFrom 12
      = some ⟨encodeLabels [] ++ 0 :: t0 :: t1 :: c0 :: c1 :: [], 1⟩ := by
    simp only [Slice.withCap, Slice.sliceFrom, Slice.slice, Slice.cap, List.length_append,
      List.length_cons, List.length_nil, hlen, List.append_assoc]
    rw [if_pos (by omega), ← hlen, List.drop_left' rfl]
    have e : hdr.length + (0 + 1) - hdr.length = 1 := by omega
    rw [e]
    rfl
  have hq := parseQuestion_encode [] (by simp) t0 t1 c0 c1 [] 1 (by simp [encodeLabels])
  rw [Parse_eq _ _ _ hh, hc, Parse_loop_succ, hs]
  simp only [Option.some_bind, hq]
  rfl

theorem split_at_6_12 (l : List Nat) :
    l = l.take 6 ++ (l.drop 6).take 6 ++ l.drop 12 := by
  have h1 : l.drop 12 = (l.drop 6).drop 6 := by rw [List.drop_drop]
  rw [h1, List.append_assoc, List.take_append_drop, List.take_append_drop]

/-! ## The record counts: claims -/

/-- C18, counterexample: two slices of length 13 and capacity 17 that show a
header with one question and the root name, differ in the shown bytes only at
the indices 6 to 11, and hide `00 01 00 01` and `09 09 09 09` behind their
length. `Parse` succeeds on both, with a question of type and class 1 on the
first and 2313 on the second, and the two renderings differ. -/
theorem hidden_bytes_counterexample :
    (Slice.withCap rootQuestionPacket [0, 1, 0, 1]).len
      = (Slice.withCap rootQuestionPacket2 [9, 9, 9, 9]).len ∧
    (Slice.withCap rootQuestionPacket [0, 1, 0, 1]).bytes.take 6
      = (Slice.withCap rootQuestionPacket2 [9, 9, 9, 9]).bytes.take 6 ∧
    (Slice.withCap rootQuestionPacket [0, 1, 0, 1]).bytes.drop 12
      = (Slice.withCap rootQuestionPacket2 [9, 9, 9, 9]).bytes.drop 12 ∧
    ∃ m m1, Parse (Slice.withCap rootQuestionPacket [0, 1, 0, 1]) = some m ∧
      Parse (Slice.withCap rootQuestionPacket2 [9, 9, 9, 9]) = some m1 ∧
      m.Questions = [⟨"", 1, 1⟩] ∧ m1.Questions = [⟨"", 2313, 2313⟩] ∧
      m.Questions ≠ m1.Questions ∧ m.String ≠ m1.String := by
  have h1 := Parse_rootQuestion [0, 1, 1, 0, 0, 1, 0, 0, 0, 0, 0, 0]
    ⟨1, ⟨0, 0, 0, 0, 1, 0, 0⟩, 1, 0, 0, 0⟩ 0 1 0 1 rfl (by decide) rfl
  have h2 := Parse_rootQuestion [0, 1, 1, 0, 0, 1, 0, 2, 0, 3, 0, 4]
    ⟨1, ⟨0, 0, 0, 0, 1, 0, 0⟩, 1, 2, 3, 4⟩ 9 9 9 9 rfl (by decide) rfl
  exact ⟨by decide, by decide, by decide, _, _, h1, h2, by decide, by decide, by decide,
    by decide⟩

/-- C18, amended: for buffers whose capacity equals their length the answer,
authority and additional counts are read and never used. Two such buffers of
the same length that agree on the bytes 0 to 5 and from index 12 on are both
decoded or both refused by `Parse`, and when they are decoded the two messages
have the same questions, identifier, flag and question count and the same
rendering by `String`. -/
theorem record_counts_ignored (l l1 : List Nat) (hlen : l.length = l1.length)
    (hhead : l.take 6 = l1.take 6) (htail : l.drop 12 = l1.drop 12) :
    ((Parse (Slice.ofBytes l)).isSome ↔ (Parse (Slice.ofBytes l1)).isSome) ∧
    ∀ m m1, Parse (Slice.ofBytes l) = some m → Parse (Slice.ofBytes l1) = some m1 →
      m.Questions = m1.Questions ∧ m.Header.Identifer = m1.Header.Identifer ∧
      m.Header.Flag = m1.Header.Flag ∧ m.Header.QuestionCount = m1.Header.QuestionCount ∧
      m.String = m1.String := by
  by_cases h12 : 12 ≤ l.length
  · have e : Slice.ofBytes l
        = ⟨l.take 6 ++ (l.drop 6).take 6 ++ l.drop 12, l.length⟩ := by
      simp only [Slice.ofBytes]
      rw [← split_at_6_12 l]
    have e1 : Slice.ofBytes l1
        = ⟨l.take 6 ++ (l1.drop 6).take 6 ++ l.drop 12, l.length⟩ := by
      simp only [Slice.ofBytes]
      rw [hhead, htail, ← split_at_6_12 l1, hlen]
    rw [e, e1]
    exact Parse_record_counts_congr (l.take 6) ((l.drop 6).take 6) ((l1.drop 6).take 6)
      (l.drop 12) l.length
      (by rw [List.length_take]; omega)
      (by rw [List.length_take, List.length_drop]; omega)
      (by rw [List.length_take, List.length_drop]; omega)
  · have hn : Parse (Slice.ofBytes l) = none :=
      Parse_none_of_header _ (parseHeader_short _ (by simp only [Slice.cap, Slice.ofBytes]; omega))
    have hn1 : Parse (Slice.ofBytes l1) = none :=
      Parse_none_of_header _ (parseHeader_short _ (by simp only [Slice.cap, Slice.ofBytes]; omega))
    rw [hn, hn1]
    refine ⟨Iff.rfl, ?_⟩
    intro m m1 hm
    exact absurd hm (by simp)

theorem record_counts_ignored_witness :
    examplePacket.length = [0, 1, 1, 0, 0, 1, 0, 2, 0, 3, 0, 4,
      7, 101, 120, 97, 109, 112, 108, 101, 3, 99, 111, 109, 0, 0, 1, 0, 1].length ∧
    examplePacket.take 6 = [0, 1, 1, 0, 0, 1, 0, 2, 0, 3, 0, 4,
      7, 101, 120, 97, 109, 112, 108, 101, 3, 99, 111, 109, 0, 0, 1, 0, 1].take 6 ∧
    examplePacket.drop 12 = [0, 1, 1, 0, 0, 1, 0, 2, 0, 3, 0, 4,
      7, 101, 120, 97, 109, 112, 108, 101, 3, 99, 111, 109, 0, 0, 1, 0, 1].drop 12 ∧
    (((Parse (Slice.ofBytes examplePacket)).isSome ↔ (Parse (Slice.ofBytes
      [0, 1, 1, 0, 0, 1, 0, 2, 0, 3, 0, 4,
        7, 101, 120, 97, 109, 112, 108, 101, 3, 99, 111, 109, 0, 0, 1, 0, 1])).isSome) ∧
    ∀ m m1, Parse (Slice.ofBytes examplePacket) = some m →
      Parse (Slice.ofBytes [0, 1, 1, 0, 0, 1, 0, 2, 0, 3, 0, 4,
        7, 101, 120, 97, 109, 112, 108, 101, 3, 99, 111, 109, 0, 0, 1, 0, 1]) = some m1 →
      m.Questions = m1.Questions ∧ m.Header.Identifer = m1.Header.Identifer ∧
      m.Header.Flag = m1.Header.Flag ∧ m.Header.QuestionCount = m1.Header.QuestionCount ∧
      m.String = m1.String) :=
  ⟨by decide, by decide, by decide,
    record_counts_ignored examplePacket [0, 1, 1, 0, 0, 1, 0, 2, 0, 3, 0, 4,
      7, 101, 120, 97, 109, 112, 108, 101, 3, 99, 111, 109, 0, 0, 1, 0, 1]
      (by decide) (by decide) (by decide)⟩

end DnsParser
